import Mathlib

/-!
Verification development for the directory-restructuring evaluation engine
(`util.py`): the hashed tree builder, the tree flattener, the structural
similarity scorer and the content-addressed diff engine.

Python strings are modelled as lists of characters (`Str`), Python dict
values occurring in tree nodes as the inductive `TreeNode` (a node is a
`file` / `directory` / `error` mapping, a plain string, or some other
non-mapping value), and a whole tree argument as `TreeDict` (either a
mapping or a malformed non-mapping value, which makes `.items()` raise).

Two sources of runtime behaviour that the Python code leaves to the
interpreter are made explicit parameters:
* `zssOk : Bool` models the `if not zss` availability check at the top of
  `calculate_tree_similarity_zss_hashed` (the only reachable source of the
  `-1.0` sentinel for well-typed inputs);
* `setOrd : List Str` models the iteration order of Python's string sets
  (CPython hash randomization makes this order run-dependent); it is used
  as a priority order wherever the code iterates over or pops from a set;
* `failAt : Option FailPoint` models an exception arising inside the big
  `try` block of `evaluate_restructuring_with_hashes` (any exception is
  caught by the single handler at the end, so only the fact of the raise,
  not its location, is observable in the result).
-/

/-- Python strings are modelled as lists of characters. -/
abbrev Str := List Char

/-- Shorthand turning a Lean string literal into the `Str` model. -/
def s (x : String) : Str := x.toList

/-- The path separator used throughout (`separator = "/"`). -/
def sep : Char := '/'

/-- Split a string on the separator, Python `path.split("/")`:
never returns an empty list. -/
def splitSep : Str → List Str
  | [] => [[]]
  | c :: rest =>
    if c = sep then
      [] :: splitSep rest
    else
      match splitSep rest with
      | p :: ps => (c :: p) :: ps
      | [] => [[c]]

/-- Join components with the separator, Python `"/".join(parts)`. -/
def joinSep : List Str → Str
  | [] => []
  | [p] => p
  | p :: ps => p ++ sep :: joinSep ps

/-- Python `path.split("/")[-1]`. -/
def basenameStr (p : Str) : Str := (splitSep p).getLastD []

/-- Python `"/".join(path.split("/")[:-1])`. -/
def dirnameStr (p : Str) : Str := joinSep (splitSep p).dropLast

mutual
/-- One value of the nested tree dictionary: the shapes distinguished by
`util.py` via `content.get("type")` and `isinstance(content, dict)`.
`file` carries `content.get("hash")` (`none` models Python `None`, the
hash of an unreadable file); `directory` carries the `children` mapping;
`errorNode` carries the `message`; `pystr` is a plain string value and
`malformed` any other non-mapping value (both fail the `isinstance`
checks and are skipped by the flattener and the scorer). -/
inductive TreeNode where
  | file : Option Str → TreeNode
  | directory : EntryList → TreeNode
  | errorNode : Str → TreeNode
  | pystr : Str → TreeNode
  | malformed : TreeNode

/-- A children mapping: an insertion-ordered association of names to nodes. -/
inductive EntryList where
  | nil : EntryList
  | cons : Str → TreeNode → EntryList → EntryList
end

/-- A tree argument as passed to the evaluation: either a mapping or a
non-mapping value (on which `.items()` raises `AttributeError`). -/
inductive TreeDict where
  | mk : EntryList → TreeDict
  | notDict : TreeDict

/-- Append two children mappings. -/
def elAppend : EntryList → EntryList → EntryList
  | .nil, b => b
  | .cons n t r, b => .cons n t (elAppend r b)

/-- Look up a name in a children mapping (first match). -/
def elGet : EntryList → Str → Option TreeNode
  | .nil, _ => none
  | .cons n t r, k => if n = k then some t else elGet r k

/-- One element of the flattened set: a `(path, type, hash-or-message)`
tuple as built by `_flatten_tree_with_hashes`. -/
structure FlatEntry where
  path : Str
  kind : Str
  ident : Option Str
deriving DecidableEq, Repr

/-- The flattener `_flatten_tree_with_hashes` on a children mapping:
directories contribute their own entry and recurse into their children,
files contribute `(path, "file", hash)`, error nodes contribute
`(path, "error", message)`, and non-mapping children values (kind
`"unknown"`) are skipped. `cur` is `current_path`, with `"."` marking
the root (then `base_path` is empty, else `cur ++ "/"`). -/
def flatEntries : EntryList → Str → List FlatEntry
  | .nil, _ => []
  | .cons name t rest, cur =>
    let basePath : Str := if cur = s "." then [] else cur ++ [sep]
    let itemPath : Str := basePath ++ name
    (match t with
     | .directory cs => { path := itemPath, kind := s "directory", ident := none } :: flatEntries cs itemPath
     | .file h => [{ path := itemPath, kind := s "file", ident := h }]
     | .errorNode m => [{ path := itemPath, kind := s "error", ident := some m }]
     | .pystr _ => []
     | .malformed => []) ++ flatEntries rest cur

/-- Flatten a whole tree argument; a non-mapping argument raises
(`tree_dict.items()` fails), which the caller's handler catches. -/
def flattenD : TreeDict → Except Str (List FlatEntry)
  | .mk es => .ok (flatEntries es (s "."))
  | .notDict => .error (s "AttributeError: object has no attribute items")

/-- Python dict insertion `m[k] = v`: replace the binding in place if the
key is present, else append it. -/
def dinsert : List (Str × Str) → Str → Str → List (Str × Str)
  | [], k, v => [(k, v)]
  | (k0, v0) :: rest, k, v =>
    if k0 = k then (k0, v) :: rest else (k0, v0) :: dinsert rest k v

/-- Python dict lookup `m[k]` (first match; keys are unique by construction). -/
def dget : List (Str × Str) → Str → Option Str
  | [], _ => none
  | (k0, v0) :: rest, k => if k0 = k then some v0 else dget rest k

/-- One step of building the hash-to-path map, the body of the dict
comprehension
`{item[2]: item[0] for item in items if item[1] == 'file' and item[2] is not None}`:
a later entry overwrites an earlier one sharing its hash (one
representative path per hash). -/
def fmStep (m : List (Str × Str)) (e : FlatEntry) : List (Str × Str) :=
  match e.ident with
  | some h => if e.kind = s "file" then dinsert m h e.path else m
  | none => m

/-- The hash-to-path map as the fold of `fmStep` over the iteration order. -/
def filesMapOf (items : List FlatEntry) : List (Str × Str) :=
  items.foldl fmStep []

/-- Rearrange the flat entries into the iteration order of the Python set
`items`: entries whose path occurs in the priority list `ord` come first,
grouped in `ord` order, the rest keep their construction order. Every
realizable set order is some such rearrangement. -/
def orderEntries (ord : List Str) (items : List FlatEntry) : List FlatEntry :=
  (ord.dedup.map (fun p => items.filter (fun e => e.path = p))).flatten
    ++ items.filter (fun e => decide (e.path ∉ ord.dedup))

/-- Rearrange a duplicate-free list of strings into the iteration order of
the corresponding Python set, guided by the priority list `ord`. -/
def orderBy (ord : List Str) (xs : List Str) : List Str :=
  ord.dedup.filter (fun x => decide (x ∈ xs)) ++ xs.filter (fun x => decide (x ∉ ord.dedup))

/-- Model of `set.pop()` on the (nonempty) candidate set `cands`: the first
candidate in the priority order, falling back to construction order. -/
def pick (ord : List Str) (cands : List Str) : Option Str :=
  match ord.find? (fun x => decide (x ∈ cands)) with
  | some x => some x
  | none => cands.head?

/-- The directory-path set of one snapshot:
`{item[0] for item in items if item[1] == 'directory'}`. -/
def dirsOfItems (items : List FlatEntry) : List Str :=
  ((items.filter (fun e => e.kind = s "directory")).map (fun e => e.path)).dedup

/-- One per-file detail record `{hash, original_path, new_path, change_type}`;
`change_type` stays absent in the (path-unequal, both-components-equal)
branch where the code appends the record without setting the key. -/
structure FileDetail where
  hash : Str
  original_path : Str
  new_path : Str
  change_type : Option Str
deriving DecidableEq, Repr

/-- One per-directory detail record `{type, original_path, new_path}`. -/
structure DirDetail where
  dtype : Str
  original_path : Str
  new_path : Str
deriving DecidableEq, Repr

/-- Accumulator of the Phase A loop over the common hashes. -/
structure AState where
  unchanged : Nat
  moved : Nat
  renamed : Nat
  movedRenamed : Nat
  details : List FileDetail
deriving DecidableEq, Repr

/-- The representative path of a hash, `files_map[h]`. -/
def rep (m : List (Str × Str)) (h : Str) : Str := (dget m h).getD []

/-- One iteration of the Phase A loop `for h in common_hashes`: compare the
two representative paths, increment exactly one of the four counters
(`unchanged` on equal paths; otherwise by the `moved` / `renamed`
component tests of lines 230 and 231, re-evaluated inline), and append
the detail record for every non-equal pair. -/
def phaseAStep (m1 m2 : List (Str × Str)) (st : AState) (h : Str) : AState :=
  if rep m1 h = rep m2 h then
    { st with unchanged := st.unchanged + 1 }
  else if decide (dirnameStr (rep m1 h) ≠ dirnameStr (rep m2 h))
      && decide (basenameStr (rep m1 h) ≠ basenameStr (rep m2 h)) then
    { st with movedRenamed := st.movedRenamed + 1,
              details := st.details
                ++ [⟨h, rep m1 h, rep m2 h, some (s "moved_renamed")⟩] }
  else if decide (dirnameStr (rep m1 h) ≠ dirnameStr (rep m2 h)) then
    { st with moved := st.moved + 1,
              details := st.details ++ [⟨h, rep m1 h, rep m2 h, some (s "moved")⟩] }
  else if decide (basenameStr (rep m1 h) ≠ basenameStr (rep m2 h)) then
    { st with renamed := st.renamed + 1,
              details := st.details ++ [⟨h, rep m1 h, rep m2 h, some (s "renamed")⟩] }
  else
    { st with details := st.details ++ [⟨h, rep m1 h, rep m2 h, none⟩] }

/-- Accumulator of the Phase B loop over the deleted-directory candidates. -/
structure BState where
  moved : Nat
  renamed : Nat
  matched : List Str
  processedD : List Str
  details : List DirDetail
deriving DecidableEq, Repr

/-- One iteration of the Phase B loop over `list(deleted_dirs_cand)`:
skip already processed candidates, then try a move match (an unmatched
added candidate with the same trailing name component), then a rename
match (same parent path); the first match is claimed and both sides are
marked consumed. -/
def bStep (setOrd : List Str) (addedCand : List Str) (st : BState) (dd : Str) : BState :=
  if dd ∈ st.processedD then st
  else
    match pick setOrd (addedCand.filter
        (fun ad => decide (ad ∉ st.matched) && decide (basenameStr ad = basenameStr dd))) with
    | some m =>
      { moved := st.moved + 1, renamed := st.renamed,
        matched := st.matched ++ [m], processedD := st.processedD ++ [dd],
        details := st.details ++ [⟨s "moved", dd, m⟩] }
    | none =>
      match pick setOrd (addedCand.filter
          (fun ad => decide (ad ∉ st.matched) && decide (dirnameStr ad = dirnameStr dd))) with
      | some m =>
        { moved := st.moved, renamed := st.renamed + 1,
          matched := st.matched ++ [m], processedD := st.processedD ++ [dd],
          details := st.details ++ [⟨s "renamed", dd, m⟩] }
      | none => st

/-- The `details` object of the result. -/
structure Details where
  deleted_files : List Str
  added_files : List Str
  moved_renamed_files : List FileDetail
  deleted_dirs : List Str
  added_dirs : List Str
  moved_renamed_dirs : List DirDetail
  unchanged_dirs : List Str
deriving DecidableEq, Repr

/-- All change counts plus the detail lists, as computed inside the `try`
block of `evaluate_restructuring_with_hashes`. -/
structure DiffFields where
  files_added : Nat
  files_deleted : Nat
  files_unchanged : Nat
  files_moved : Nat
  files_renamed : Nat
  files_moved_renamed : Nat
  dirs_added : Nat
  dirs_deleted : Nat
  dirs_unchanged : Nat
  dirs_moved : Nat
  dirs_renamed : Nat
  details : Details
deriving DecidableEq, Repr

/-- Phases A and B of the diff, as a function of the two hash-to-path
maps and the two directory-path sets (lines 197 to 308 of `util.py`),
with `setOrd` fixing the iteration order of every derived Python set. -/
def diffFromMapsDirs (setOrd : List Str) (m1 m2 : List (Str × Str))
    (dirs1 dirs2 : List Str) : DiffFields :=
  let hashes1 := m1.map Prod.fst
  let hashes2 := m2.map Prod.fst
  let deletedHashes := hashes1.filter (fun h => decide (h ∉ hashes2))
  let addedHashes := hashes2.filter (fun h => decide (h ∉ hashes1))
  let commonHashes := hashes1.filter (fun h => decide (h ∈ hashes2))
  let deletedFilePaths := deletedHashes.map (fun h => (dget m1 h).getD [])
  let addedFilePaths := addedHashes.map (fun h => (dget m2 h).getD [])
  let pa := commonHashes.foldl (phaseAStep m1 m2) ⟨0, 0, 0, 0, []⟩
  let deletedDirsCand := dirs1.filter (fun d => decide (d ∉ dirs2))
  let addedDirsCand := dirs2.filter (fun d => decide (d ∉ dirs1))
  let unchangedDirPaths := dirs1.filter (fun d => decide (d ∈ dirs2))
  let pb := (orderBy setOrd deletedDirsCand).foldl (bStep setOrd addedDirsCand) ⟨0, 0, [], [], []⟩
  { files_added := addedHashes.length
    files_deleted := deletedHashes.length
    files_unchanged := pa.unchanged
    files_moved := pa.moved
    files_renamed := pa.renamed
    files_moved_renamed := pa.movedRenamed
    dirs_added := (addedDirsCand.filter (fun d => decide (d ∉ pb.matched))).length
    dirs_deleted := (deletedDirsCand.filter (fun d => decide (d ∉ pb.processedD))).length
    dirs_unchanged := unchangedDirPaths.length
    dirs_moved := pb.moved
    dirs_renamed := pb.renamed
    details :=
      { deleted_files := deletedFilePaths
        added_files := addedFilePaths
        moved_renamed_files := pa.details
        deleted_dirs := deletedDirsCand.filter (fun d => decide (d ∉ pb.processedD))
        added_dirs := addedDirsCand.filter (fun d => decide (d ∉ pb.matched))
        moved_renamed_dirs := pb.details
        unchanged_dirs := unchangedDirPaths } }

/-- Phases A and B of the diff over the two flattened snapshots: build the
hash-to-path maps (iterating the sets in the modelled order) and the
directory-path sets, then reconcile. -/
def diffFromItems (setOrd : List Str) (items1 items2 : List FlatEntry) : DiffFields :=
  diffFromMapsDirs setOrd
    (filesMapOf (orderEntries setOrd items1))
    (filesMapOf (orderEntries setOrd items2))
    (dirsOfItems items1) (dirsOfItems items2)

/-- Marker for a modelled exception inside the `try` block: during the
file phase (before the file counts are assigned) or during the directory
phase (after them). The single `except` handler at lines 311 to 322
clears every count either way, so the two points produce the same result. -/
inductive FailPoint where
  | inPhaseA : FailPoint
  | inPhaseB : FailPoint
deriving DecidableEq, Repr

/-- The body of the `try` block: flatten both trees (a non-mapping
argument raises here), then either the modelled exception fires or the
two diff phases run to completion. -/
def diffBody (failAt : Option FailPoint) (setOrd : List Str) (d1 d2 : TreeDict) :
    Except Str DiffFields :=
  match flattenD d1 with
  | .error e => .error e
  | .ok items1 =>
    match flattenD d2 with
    | .error e => .error e
    | .ok items2 =>
      match failAt with
      | some _ => .error (s "exception")
      | none => .ok (diffFromItems setOrd items1 items2)

mutual
/-- An abstract ordered tree as handed to `zss`: a name label and the
ordered forest of children (`zss.Node`). -/
inductive ZTree where
  | node : Str → ZForest → ZTree

/-- An ordered forest of abstract trees. -/
inductive ZForest where
  | nil : ZForest
  | cons : ZTree → ZForest → ZForest
end

/-- Append two forests. -/
def fappend : ZForest → ZForest → ZForest
  | .nil, g => g
  | .cons t f, g => .cons t (fappend f g)

/-- Total number of nodes in a forest. -/
def fsize : ZForest → Nat
  | .nil => 0
  | .cons (.node _ cs) rest => 1 + fsize cs + fsize rest

/-- The classical ordered-forest edit distance computed by
`zss.simple_distance` (unit-cost insert and delete, relabel costing one
when the labels differ), written as the standard recurrence on the
leftmost roots. The explicit budget `fuel` makes the recursion
structural; `fdist` supplies a budget larger than the recursion depth,
which is bounded by the total node count. -/
def fdistF : Nat → ZForest → ZForest → Nat
  | 0, _, _ => 0
  | _ + 1, .nil, .nil => 0
  | f + 1, .cons (.node _ c) rest, .nil => 1 + fdistF f (fappend c rest) .nil
  | f + 1, .nil, .cons (.node _ c) rest => 1 + fdistF f .nil (fappend c rest)
  | f + 1, .cons (.node l1 c1) r1, .cons (.node l2 c2) r2 =>
    min (1 + fdistF f (fappend c1 r1) (.cons (.node l2 c2) r2))
      (min (1 + fdistF f (.cons (.node l1 c1) r1) (fappend c2 r2))
        ((if l1 = l2 then 0 else 1) + fdistF f c1 c2 + fdistF f r1 r2))

/-- The tree edit distance between two forests. -/
def fdist (f1 f2 : ZForest) : Nat :=
  fdistF (fsize f1 + fsize f2 + 1) f1 f2

/-- Strict lexicographic comparison of strings by code point, the order
used by Python's `sorted` on the children names. -/
def strLtB : Str → Str → Bool
  | [], [] => false
  | [], _ :: _ => true
  | _ :: _, [] => false
  | a :: as, b :: bs =>
    if a.toNat < b.toNat then true
    else if b.toNat < a.toNat then false
    else strLtB as bs

/-- Insert one named entry into a name-sorted children mapping. -/
def insertEL (n : Str) (t : TreeNode) : EntryList → EntryList
  | .nil => .cons n t .nil
  | .cons m u r =>
    if strLtB n m then .cons n t (.cons m u r) else .cons m u (insertEL n t r)

/-- Sort a children mapping by name, `sorted(children_dict.items())`. -/
def sortEL : EntryList → EntryList
  | .nil => .nil
  | .cons n t r => insertEL n t (sortEL r)

/-- Number of nodes of a tree value, used only to compute recursion budgets. -/
def elSize : EntryList → Nat
  | .nil => 0
  | .cons _ (.directory cs) r => 1 + elSize cs + elSize r
  | .cons _ _ r => 1 + elSize r

/-- Argument of the combined conversion recursion: one labeled node or a
children mapping. -/
inductive ConvIn where
  | one : Str → TreeNode → ConvIn
  | many : EntryList → ConvIn

/-- Result of the combined conversion recursion: a converted node with its
node count, or a converted forest with its total node count. -/
inductive ConvOut where
  | one : ZTree → Nat → ConvOut
  | many : ZForest → Nat → ConvOut

/-- The conversion `_dict_to_zss_node_recursive_hashed`: every mapping node
becomes a labeled `zss` node counting one; a directory node additionally
converts its children in sorted name order, skipping non-mapping children
values; file and error nodes are leaves. The budget makes the recursion
structural; callers supply more than the recursion ever needs. -/
def convA : Nat → ConvIn → ConvOut
  | 0, .one label _ => .one (.node label .nil) 1
  | 0, .many _ => .many .nil 0
  | f + 1, .one label (.directory cs) =>
    (match convA f (.many (sortEL cs)) with
     | .many forest cnt => .one (.node label forest) (1 + cnt)
     | .one _ _ => .one (.node label .nil) 1)
  | _ + 1, .one label _ => .one (.node label .nil) 1
  | _ + 1, .many .nil => .many .nil 0
  | f + 1, .many (.cons k child rest) =>
    (match convA f (.many rest) with
     | .many forest cnt =>
       (match child with
        | .pystr _ => .many forest cnt
        | .malformed => .many forest cnt
        | _ =>
          (match convA f (.one k child) with
           | .one t c => .many (.cons t forest) (c + cnt)
           | .many _ _ => .many forest cnt))
     | .one _ _ => .many .nil 0)

/-- Convert one labeled node, returning the abstract tree and its node count. -/
def convNode (label : Str) (t : TreeNode) : ZTree × Nat :=
  match convA (2 * elSize (.cons label t .nil) + 2) (.one label t) with
  | .one z c => (z, c)
  | .many _ _ => (.node label .nil, 1)

/-- Wrap a tree argument as the implicit root
`{"type": "directory", "children": tree_dict}` labeled `"."` and convert
it; a non-mapping `children` value fails the `isinstance` check inside
the conversion and contributes no children. -/
def convRoot (d : TreeDict) : ZTree × Nat :=
  convNode (s ".") (.directory (match d with | .mk es => es | .notDict => .nil))

/-- The scorer `calculate_tree_similarity_zss_hashed`: `-1` when the `zss`
capability is unavailable, else the edit distance between the two
abstract trees normalized by the summed node counts and clamped to the
unit interval, with the two special cases of the source. -/
def calculate_tree_similarity_zss_hashed (zssOk : Bool) (d1 d2 : TreeDict) : ℚ :=
  if zssOk = false then -1
  else
    let c1 := convRoot d1
    let c2 := convRoot d2
    if c1.2 = 0 ∧ c2.2 = 0 then 1
    else
      let distance : ℚ := (fdist (.cons c1.1 .nil) (.cons c2.1 .nil) : Nat)
      let maxPossible : ℚ := (c1.2 : Nat) + (c2.2 : Nat)
      if maxPossible = 0 then (if distance = 0 then 1 else 0)
      else max 0 (min (1 - distance / maxPossible) 1)

/-- The evaluation result: the similarity plus one `Option` per count and
detail field (`none` models a field set to Python `None` by the failure
handler) and the `diff_error` diagnostic (`none` models an absent key). -/
structure EvalResult where
  ted_similarity : ℚ
  files_added : Option Nat
  files_deleted : Option Nat
  files_unchanged : Option Nat
  files_moved : Option Nat
  files_renamed : Option Nat
  files_moved_renamed : Option Nat
  dirs_added : Option Nat
  dirs_deleted : Option Nat
  dirs_unchanged : Option Nat
  dirs_moved : Option Nat
  dirs_renamed : Option Nat
  details : Option Details
  diff_error : Option Str
deriving DecidableEq, Repr

/-- Package the outcome of the `try` block: on success every count is
populated; on an exception the handler records `diff_error` and sets
every count and the details to `None`. -/
def buildResult (sim : ℚ) (diff : Except Str DiffFields) : EvalResult :=
  match diff with
  | .ok f =>
    { ted_similarity := sim
      files_added := some f.files_added
      files_deleted := some f.files_deleted
      files_unchanged := some f.files_unchanged
      files_moved := some f.files_moved
      files_renamed := some f.files_renamed
      files_moved_renamed := some f.files_moved_renamed
      dirs_added := some f.dirs_added
      dirs_deleted := some f.dirs_deleted
      dirs_unchanged := some f.dirs_unchanged
      dirs_moved := some f.dirs_moved
      dirs_renamed := some f.dirs_renamed
      details := some f.details
      diff_error := none }
  | .error msg =>
    { ted_similarity := sim
      files_added := none
      files_deleted := none
      files_unchanged := none
      files_moved := none
      files_renamed := none
      files_moved_renamed := none
      dirs_added := none
      dirs_deleted := none
      dirs_unchanged := none
      dirs_moved := none
      dirs_renamed := none
      details := none
      diff_error := some msg }

/-- The evaluation `evaluate_restructuring_with_hashes`: compute the
similarity first and abort with `None` when it is negative (lines 186 to
188); otherwise run the diff phases inside the `try` block and return
the packaged result. -/
def evaluate_restructuring_with_hashes (zssOk : Bool) (failAt : Option FailPoint)
    (setOrd : List Str) (d1 d2 : TreeDict) : Option EvalResult :=
  let sim := calculate_tree_similarity_zss_hashed zssOk d1 d2
  if sim < 0 then none
  else some (buildResult sim (diffBody failAt setOrd d1 d2))

mutual
/-- A model filesystem entry as seen by `_build_tree_recursive`: a regular
file (whose hashing yields `some h`, or `none` when `calculate_sha256`
cannot read it), a listable directory with its entries, a directory whose
`os.listdir` raises `OSError` with the given message, an item whose
`isdir` / `isfile` check raises `OSError`, and an item that is neither a
file nor a directory (skipped silently). -/
inductive FSEntry where
  | ffile : Option Str → FSEntry
  | fdir : FSList → FSEntry
  | funlistable : Str → FSEntry
  | fbad : Str → FSEntry
  | fother : FSEntry

/-- A directory listing of the model filesystem. -/
inductive FSList where
  | fnil : FSList
  | fcons : Str → FSEntry → FSList → FSList
end

/-- Insert one named filesystem item into a name-sorted listing. -/
def insertFS (n : Str) (e : FSEntry) : FSList → FSList
  | .fnil => .fcons n e .fnil
  | .fcons m u r =>
    if strLtB n m then .fcons n e (.fcons m u r) else .fcons m u (insertFS n e r)

/-- Sort a listing by name, `items.sort()`. -/
def sortFS : FSList → FSList
  | .fnil => .fnil
  | .fcons n e r => insertFS n e (sortFS r)

/-- Size of a model filesystem, used only to compute recursion budgets. -/
def fsSize : FSList → Nat
  | .fnil => 0
  | .fcons _ (.fdir sub) r => 1 + fsSize sub + fsSize r
  | .fcons _ _ r => 1 + fsSize r

/-- The body of `_build_tree_recursive` over an already sorted listing:
subdirectories recurse (an unlistable subdirectory contributes a
`directory` node whose children mapping is the single pseudo-entry
`__listing_error__` bound to the diagnostic string), files carry their
hash, items whose type check raises contribute an `error` node, and
other items are skipped. The budget makes the recursion structural;
`create_directory_tree_with_hashes` supplies more than enough. -/
def buildItemsF : Nat → FSList → EntryList
  | 0, _ => .nil
  | _ + 1, .fnil => .nil
  | f + 1, .fcons n e r =>
    match e with
    | .ffile h => .cons n (.file h) (buildItemsF f r)
    | .fdir sub => .cons n (.directory (buildItemsF f (sortFS sub))) (buildItemsF f r)
    | .funlistable msg =>
      .cons n (.directory (.cons (s "__listing_error__")
        (.pystr (s "Access denied or error: " ++ msg)) .nil)) (buildItemsF f r)
    | .fbad msg => .cons n (.errorNode (s "Error accessing item: " ++ msg)) (buildItemsF f r)
    | .fother => buildItemsF f r

/-- The builder `create_directory_tree_with_hashes` on the root listing of
a valid directory: sort and process every entry recursively. -/
def create_directory_tree_with_hashes (root : FSList) : TreeDict :=
  .mk (buildItemsF (2 * fsSize root + 2) (sortFS root))

/-- The edit distance of any forest to itself is zero, for every budget:
the match branch relabels every root for free and recurses. -/
theorem fdistF_self : ∀ f F, fdistF f F F = 0 := by
  intro f
  induction f with
  | zero => intro F; rfl
  | succ f ih =>
    intro F
    cases F with
    | nil => rfl
    | cons t rest =>
      cases t with
      | node l c => simp [fdistF, ih]

/-- The edit distance of a forest to itself is zero. -/
theorem fdist_self (F : ZForest) : fdist F F = 0 :=
  fdistF_self _ _

/-- Shape of the conversion: a node input yields a node output counting at
least the node itself; a mapping input yields a forest output. -/
theorem convA_shape : ∀ f : Nat,
    (∀ lbl t, ∃ z c, convA f (.one lbl t) = .one z c ∧ 1 ≤ c) ∧
    (∀ es, ∃ fo c, convA f (.many es) = .many fo c) := by
  intro f
  induction f with
  | zero =>
    refine ⟨fun lbl t => ⟨.node lbl .nil, 1, rfl, le_refl 1⟩, fun es => ⟨.nil, 0, rfl⟩⟩
  | succ f ih =>
    constructor
    · intro lbl t
      cases t with
      | directory cs =>
        obtain ⟨fo, c, hm⟩ := ih.2 (sortEL cs)
        exact ⟨.node lbl fo, 1 + c, by simp [convA, hm], Nat.le_add_right 1 c⟩
      | file h => exact ⟨.node lbl .nil, 1, rfl, le_refl 1⟩
      | errorNode m => exact ⟨.node lbl .nil, 1, rfl, le_refl 1⟩
      | pystr v => exact ⟨.node lbl .nil, 1, rfl, le_refl 1⟩
      | malformed => exact ⟨.node lbl .nil, 1, rfl, le_refl 1⟩
    · intro es
      cases es with
      | nil => exact ⟨.nil, 0, rfl⟩
      | cons k child rest =>
        obtain ⟨fo, c, hm⟩ := ih.2 rest
        cases child with
        | pystr v => exact ⟨fo, c, by simp [convA, hm]⟩
        | malformed => exact ⟨fo, c, by simp [convA, hm]⟩
        | file h =>
          obtain ⟨z, c1, ho, _⟩ := ih.1 k (.file h)
          exact ⟨.cons z fo, c1 + c, by simp [convA, hm, ho]⟩
        | directory cs =>
          obtain ⟨z, c1, ho, _⟩ := ih.1 k (.directory cs)
          exact ⟨.cons z fo, c1 + c, by simp [convA, hm, ho]⟩
        | errorNode m =>
          obtain ⟨z, c1, ho, _⟩ := ih.1 k (.errorNode m)
          exact ⟨.cons z fo, c1 + c, by simp [convA, hm, ho]⟩

/-- Every converted node counts at least itself. -/
theorem convNode_pos (lbl : Str) (t : TreeNode) : 1 ≤ (convNode lbl t).2 := by
  obtain ⟨z, c, heq, hc⟩ := (convA_shape _).1 lbl t
  unfold convNode
  rw [heq]
  exact hc

/-- The abstract tree of either snapshot counts at least its root. -/
theorem convRoot_pos (d : TreeDict) : 1 ≤ (convRoot d).2 :=
  convNode_pos _ _

/-- With the `zss` capability available the two degenerate branches of the
scorer are dead (both sizes include the root), so the score is exactly
the clamped normalized distance of the two abstract trees. -/
theorem sim_true_eq (d1 d2 : TreeDict) :
    calculate_tree_similarity_zss_hashed true d1 d2
      = max 0 (min (1 -
          (fdist (.cons (convRoot d1).1 .nil) (.cons (convRoot d2).1 .nil) : ℚ) /
            (((convRoot d1).2 : ℚ) + ((convRoot d2).2 : ℚ))) 1) := by
  have h1 := convRoot_pos d1
  have h2 := convRoot_pos d2
  have hpos : (0 : ℚ) < ((convRoot d1).2 : ℚ) + ((convRoot d2).2 : ℚ) := by
    have : (0 : ℚ) < ((convRoot d1).2 : ℚ) := by exact_mod_cast Nat.lt_of_lt_of_le Nat.zero_lt_one h1
    have h2q : (0 : ℚ) ≤ ((convRoot d2).2 : ℚ) := by positivity
    linarith
  unfold calculate_tree_similarity_zss_hashed
  rw [if_neg (by simp)]
  rw [if_neg (by
    rintro ⟨ha, _⟩
    exact absurd ha (by omega))]
  rw [if_neg (ne_of_gt hpos)]

/-- With the capability available the score is never negative. -/
theorem sim_true_nonneg (d1 d2 : TreeDict) :
    0 ≤ calculate_tree_similarity_zss_hashed true d1 d2 := by
  rw [sim_true_eq]
  exact le_max_left 0 _

/-- With the capability available the score never exceeds one. -/
theorem sim_true_le_one (d1 d2 : TreeDict) :
    calculate_tree_similarity_zss_hashed true d1 d2 ≤ 1 := by
  rw [sim_true_eq]
  exact max_le (by norm_num) (min_le_right _ _)

/-- Comparing a tree with itself scores exactly one. -/
theorem sim_true_self (d : TreeDict) :
    calculate_tree_similarity_zss_hashed true d d = 1 := by
  rw [sim_true_eq, fdist_self]
  norm_num

/-- With the capability available, the evaluation never aborts: it returns
the packaged similarity and diff outcome. -/
theorem evaluate_true_eq (fa : Option FailPoint) (ord : List Str) (d1 d2 : TreeDict) :
    evaluate_restructuring_with_hashes true fa ord d1 d2
      = some (buildResult (calculate_tree_similarity_zss_hashed true d1 d2)
          (diffBody fa ord d1 d2)) := by
  unfold evaluate_restructuring_with_hashes
  rw [if_neg (not_lt.mpr (sim_true_nonneg d1 d2))]

/-- A one-file snapshot used by several concrete scenarios. -/
def sampleA : TreeDict := .mk (.cons (s "a.txt") (.file (some (s "H1"))) .nil)

/-- Whenever the modelled exception fires inside the `try` block, the diff
outcome is an error (the flattening step may already have raised on a
malformed argument; otherwise the modelled exception does). -/
theorem diffBody_fail (fa : FailPoint) (ord : List Str) (d1 d2 : TreeDict) :
    ∃ msg, diffBody (some fa) ord d1 d2 = .error msg := by
  cases d1 <;> cases d2 <;> exact ⟨_, rfl⟩

/-- C1, counterexample: on a pair of trees for which the scorer reports the
sentinel `-1` (the `zss` capability is unavailable), the evaluation
returns `None` instead of attempting the diff — the claim that a
similarity failure never causes the evaluation to return no result fails
at this input. -/
theorem C1_counterexample_sim_failure_aborts :
    calculate_tree_similarity_zss_hashed false sampleA sampleA = -1 ∧
    evaluate_restructuring_with_hashes false none [] sampleA sampleA = none :=
  ⟨rfl, by decide⟩

/-- C1, amended: whenever the similarity computation reports a negative
sentinel, `evaluate_restructuring_with_hashes` aborts and returns `None`
(lines 186 to 188); the Phase A/B diff is never attempted and no partial
result is produced. -/
theorem C1_sim_failure_returns_none (zssOk : Bool) (fa : Option FailPoint)
    (ord : List Str) (d1 d2 : TreeDict)
    (h : calculate_tree_similarity_zss_hashed zssOk d1 d2 < 0) :
    evaluate_restructuring_with_hashes zssOk fa ord d1 d2 = none := by
  unfold evaluate_restructuring_with_hashes
  rw [if_pos h]

/-- C1, witness: the amended theorem applied to a concrete failing pair. -/
theorem C1_sim_failure_returns_none_witness :
    calculate_tree_similarity_zss_hashed false sampleA sampleA < 0 ∧
    evaluate_restructuring_with_hashes false none [] sampleA sampleA = none :=
  ⟨by decide, C1_sim_failure_returns_none false none [] sampleA sampleA (by decide)⟩

/-- C2, counterexample: on a pair of identical one-file snapshots, Phase A
alone computes `files_unchanged = 1`; yet when an exception fires during
the directory phase the handler nulls the already computed file counts
too, so the returned result carries `files_unchanged = None` alongside
the `diff_error` diagnostic — the claim that a Phase B failure keeps the
Phase A counts fails at this input. -/
theorem C2_counterexample_phaseB_failure_clears_phaseA :
    (evaluate_restructuring_with_hashes true none [] sampleA sampleA).map
        (fun r => r.files_unchanged) = some (some 1) ∧
    (evaluate_restructuring_with_hashes true (some .inPhaseB) [] sampleA sampleA).map
        (fun r => (r.files_unchanged, r.diff_error.isSome)) = some (none, true) := by
  constructor
  · rw [evaluate_true_eq]
    decide
  · rw [evaluate_true_eq]
    decide

/-- C2, amended: any exception inside the `try` block of the diff (whether
during Phase A or Phase B) makes the handler record a `diff_error`
diagnostic and set every one of the twelve count and detail fields to
the unavailable marker, including counts the other phase had already
computed; only the similarity survives. -/
theorem C2_exception_clears_every_count (fa : FailPoint) (ord : List Str)
    (d1 d2 : TreeDict) :
    ∃ msg, evaluate_restructuring_with_hashes true (some fa) ord d1 d2
      = some { ted_similarity := calculate_tree_similarity_zss_hashed true d1 d2
               files_added := none
               files_deleted := none
               files_unchanged := none
               files_moved := none
               files_renamed := none
               files_moved_renamed := none
               dirs_added := none
               dirs_deleted := none
               dirs_unchanged := none
               dirs_moved := none
               dirs_renamed := none
               details := none
               diff_error := some msg } := by
  obtain ⟨msg, hm⟩ := diffBody_fail fa ord d1 d2
  exact ⟨msg, by rw [evaluate_true_eq, hm]; rfl⟩

/-- C6: for any two well-formed trees the score equals the normalized edit
distance `1 - distance / (size1 + size2)` clamped to the unit interval,
with node counts that include the implicit root; consequently it lies in
`[0, 1]`, and comparing any tree with itself scores exactly `1`. -/
theorem C6_similarity_bounds_and_reflexivity :
    (∀ d1 d2 : TreeDict,
      calculate_tree_similarity_zss_hashed true d1 d2
        = max 0 (min (1 -
            (fdist (.cons (convRoot d1).1 .nil) (.cons (convRoot d2).1 .nil) : ℚ) /
              (((convRoot d1).2 : ℚ) + ((convRoot d2).2 : ℚ))) 1)) ∧
    (∀ d1 d2 : TreeDict,
      0 ≤ calculate_tree_similarity_zss_hashed true d1 d2 ∧
      calculate_tree_similarity_zss_hashed true d1 d2 ≤ 1) ∧
    (∀ d : TreeDict, calculate_tree_similarity_zss_hashed true d d = 1) :=
  ⟨sim_true_eq,
   fun d1 d2 => ⟨sim_true_nonneg d1 d2, sim_true_le_one d1 d2⟩,
   sim_true_self⟩

/-- First snapshot of the order-dependence example: directories `p/q` and
`r/x` exist only here. -/
def orderExA : TreeDict :=
  .mk (.cons (s "p") (.directory (.cons (s "q") (.directory .nil) .nil))
    (.cons (s "r") (.directory (.cons (s "x") (.directory .nil) .nil)) .nil))

/-- Second snapshot of the order-dependence example: directory `p/x`
exists only here. -/
def orderExB : TreeDict :=
  .mk (.cons (s "p") (.directory (.cons (s "x") (.directory .nil) .nil))
    (.cons (s "r") (.directory .nil) .nil))

/-- Candidate iteration order processing `p/q` first. -/
def orderFstPQ : List Str := [s "p/q", s "r/x"]

/-- Candidate iteration order processing `r/x` first. -/
def orderFstRX : List Str := [s "r/x", s "p/q"]

/-- C7, counterexample: on the same pair of snapshots, two realizable
iteration orders of the candidate sets (Python set order varies with
hash randomization across interpreter runs) classify the directory
changes differently — one run sees a rename and zero moves, the other a
move and zero renames — so the full evaluation results differ. -/
theorem C7_counterexample_results_depend_on_set_order :
    (evaluate_restructuring_with_hashes true none orderFstPQ orderExA orderExB).map
        (fun r => (r.dirs_moved, r.dirs_renamed)) = some (some 0, some 1) ∧
    (evaluate_restructuring_with_hashes true none orderFstRX orderExA orderExB).map
        (fun r => (r.dirs_moved, r.dirs_renamed)) = some (some 1, some 0) ∧
    evaluate_restructuring_with_hashes true none orderFstPQ orderExA orderExB
      ≠ evaluate_restructuring_with_hashes true none orderFstRX orderExA orderExB := by
  refine ⟨?_, ?_, ?_⟩
  · rw [evaluate_true_eq]
    decide
  · rw [evaluate_true_eq]
    decide
  · intro h
    have h1 : (evaluate_restructuring_with_hashes true none orderFstPQ orderExA orderExB).map
        (fun r => (r.dirs_moved, r.dirs_renamed)) = some (some 0, some 1) := by
      rw [evaluate_true_eq]
      decide
    have h2 : (evaluate_restructuring_with_hashes true none orderFstRX orderExA orderExB).map
        (fun r => (r.dirs_moved, r.dirs_renamed)) = some (some 1, some 0) := by
      rw [evaluate_true_eq]
      decide
    rw [h, h2] at h1
    exact absurd h1 (by decide)

/-- Snapshot losing the empty directory `reports`. -/
def scenDel : TreeDict := .mk (.cons (s "reports") (.directory .nil) .nil)

/-- Snapshot gaining `archive/reports` (same trailing name component). -/
def scenAdd : TreeDict :=
  .mk (.cons (s "archive") (.directory (.cons (s "reports") (.directory .nil) .nil)) .nil)

/-- Snapshot losing `a/reports`. -/
def scenDel2 : TreeDict :=
  .mk (.cons (s "a") (.directory (.cons (s "reports") (.directory .nil) .nil)) .nil)

/-- Snapshot gaining both `a/zzz` (a same-parent rename candidate) and
`b/reports` (a same-basename move candidate). -/
def scenAdd2 : TreeDict :=
  .mk (.cons (s "a") (.directory (.cons (s "zzz") (.directory .nil) .nil))
    (.cons (s "b") (.directory (.cons (s "reports") (.directory .nil) .nil)) .nil))

/-- C8: deleting `reports/` while adding `archive/reports/` is classified
as one directory move (the pair is recorded in the move details, neither
path is counted deleted or added; the freshly added parent `archive` is
the only added directory); and when both a same-basename move candidate
and a same-parent rename candidate are available, the move match is
claimed first. -/
theorem C8_basename_move_match_before_rename :
    ((evaluate_restructuring_with_hashes true none [] scenDel scenAdd).map
        (fun r => (r.dirs_moved, r.dirs_deleted, r.dirs_added)) = some (some 1, some 0, some 1)) ∧
    ((evaluate_restructuring_with_hashes true none [] scenDel scenAdd).map
        (fun r => r.details.map (fun dt => dt.moved_renamed_dirs))
      = some (some [(⟨s "moved", s "reports", s "archive/reports"⟩ : DirDetail)])) ∧
    ((evaluate_restructuring_with_hashes true none [] scenDel scenAdd).map
        (fun r => r.details.map (fun dt => (dt.deleted_dirs, dt.added_dirs)))
      = some (some (([] : List Str), [s "archive"]))) ∧
    ((evaluate_restructuring_with_hashes true none [] scenDel2 scenAdd2).map
        (fun r => (r.dirs_moved, r.dirs_renamed, r.dirs_deleted, r.dirs_added))
      = some (some 1, some 0, some 0, some 2)) ∧
    ((evaluate_restructuring_with_hashes true none [] scenDel2 scenAdd2).map
        (fun r => r.details.map (fun dt => dt.moved_renamed_dirs))
      = some (some [(⟨s "moved", s "a/reports", s "b/reports"⟩ : DirDetail)])) := by
  refine ⟨?_, ?_, ?_, ?_, ?_⟩ <;> rw [evaluate_true_eq] <;> decide

/-- A root listing with a listable directory `alpha`, an unlistable
directory `bad` (its `os.listdir` raises with message `boom`) and a
readable file `zed`. -/
def fsWithUnlistable : FSList :=
  .fcons (s "zed") (.ffile (some (s "HZ")))
    (.fcons (s "bad") (.funlistable (s "boom"))
      (.fcons (s "alpha") (.fdir .fnil) .fnil))

/-- The children mapping built from that listing. -/
def builtUnlistable : EntryList :=
  match create_directory_tree_with_hashes fsWithUnlistable with
  | .mk es => es
  | .notDict => .nil

/-- A root listing with one item whose `isdir` / `isfile` check raises. -/
def fsWithBadItem : FSList := .fcons (s "x") (.fbad (s "denied")) .fnil

/-- The children mapping built from that listing. -/
def builtBadItem : EntryList :=
  match create_directory_tree_with_hashes fsWithBadItem with
  | .mk es => es
  | .notDict => .nil

/-- C3, counterexample: for an unlistable directory the builder does not
emit a node of kind `error`; it emits a `directory` node whose children
mapping is the single pseudo-entry `__listing_error__` bound to the
diagnostic string, and the flattened set of the built tree contains no
`error`-kind entry at all — the unlistable directory flattens as an
ordinary directory entry. -/
theorem C3_counterexample_unlistable_dir_is_directory_node :
    elGet builtUnlistable (s "bad")
      = some (.directory (.cons (s "__listing_error__")
          (.pystr (s "Access denied or error: boom")) .nil)) ∧
    ((flatEntries builtUnlistable (s ".")).all
        (fun e => decide (e.kind ≠ s "error")) = true) ∧
    ((⟨s "bad", s "directory", none⟩ : FlatEntry) ∈ flatEntries builtUnlistable (s ".")) :=
  ⟨rfl, by decide, by decide⟩

/-- A fold skips an element on which the step function is the identity. -/
theorem foldl_middle_id {α β : Type} (f : β → α → β) (e : α)
    (hid : ∀ st, f st e = st) (A B : List α) (m : β) :
    List.foldl f m (A ++ e :: B) = List.foldl f m (A ++ B) := by
  rw [List.foldl_append, List.foldl_append, List.foldl_cons, hid]

/-- Filtering around a kept middle element. -/
theorem filter_middle_pos {α : Type} (p : α → Bool) (e : α) (he : p e = true)
    (X Y : List α) : (X ++ e :: Y).filter p = X.filter p ++ e :: Y.filter p := by
  simp [List.filter_append, List.filter_cons, he]

/-- Filtering around a dropped middle element. -/
theorem filter_middle_neg {α : Type} (p : α → Bool) (e : α) (he : p e = false)
    (X Y : List α) : (X ++ e :: Y).filter p = (X ++ Y).filter p := by
  simp [List.filter_append, List.filter_cons, he]

/-- Inserting one entry into the underlying collection inserts it at exactly
one position of the modelled set-iteration order. -/
theorem orderEntries_middle (ord : List Str) (X Y : List FlatEntry) (e : FlatEntry) :
    ∃ A B, orderEntries ord (X ++ e :: Y) = A ++ e :: B ∧
      orderEntries ord (X ++ Y) = A ++ B := by
  by_cases hp : e.path ∈ ord.dedup
  · obtain ⟨P1, P2, hsplit⟩ := List.append_of_mem hp
    have hnd : (ord.dedup).Nodup := ord.nodup_dedup
    rw [hsplit] at hnd
    rw [List.nodup_append] at hnd
    obtain ⟨hnd1, hnd2, hdisj⟩ := hnd
    have hP1 : ∀ q ∈ P1, q ≠ e.path := by
      intro q hq hqe
      exact (hdisj hq (by simp [hqe])).elim
    have hP2 : ∀ q ∈ P2, q ≠ e.path := by
      intro q hq hqe
      rw [List.nodup_cons] at hnd2
      exact hnd2.1 (hqe ▸ hq)
    have hblocks1 : P1.map (fun p => (X ++ e :: Y).filter (fun x => x.path = p))
        = P1.map (fun p => (X ++ Y).filter (fun x => x.path = p)) := by
      apply List.map_congr_left
      intro q hq
      exact filter_middle_neg _ _ (by simp [hP1 q hq, Ne.symm]) X Y
    have hblocks2 : P2.map (fun p => (X ++ e :: Y).filter (fun x => x.path = p))
        = P2.map (fun p => (X ++ Y).filter (fun x => x.path = p)) := by
      apply List.map_congr_left
      intro q hq
      exact filter_middle_neg _ _ (by simp [hP2 q hq, Ne.symm]) X Y
    have hblocke : (X ++ e :: Y).filter (fun x => x.path = e.path)
        = X.filter (fun x => x.path = e.path) ++ e :: Y.filter (fun x => x.path = e.path) :=
      filter_middle_pos _ _ (by simp) X Y
    have hblockeXY : (X ++ Y).filter (fun x => x.path = e.path)
        = X.filter (fun x => x.path = e.path) ++ Y.filter (fun x => x.path = e.path) := by
      rw [List.filter_append]
    have htail : (X ++ e :: Y).filter (fun x => decide (x.path ∉ P1 ++ e.path :: P2))
        = (X ++ Y).filter (fun x => decide (x.path ∉ P1 ++ e.path :: P2)) :=
      filter_middle_neg _ _ (by simp) X Y
    refine ⟨(P1.map (fun p => (X ++ Y).filter (fun x => x.path = p))).flatten
        ++ X.filter (fun x => x.path = e.path),
      Y.filter (fun x => x.path = e.path)
        ++ (P2.map (fun p => (X ++ Y).filter (fun x => x.path = p))).flatten
        ++ (X ++ Y).filter (fun x => decide (x.path ∉ P1 ++ e.path :: P2)), ?_, ?_⟩
    · unfold orderEntries
      rw [hsplit, List.map_append, List.map_cons, List.flatten_append, List.flatten_cons,
        hblocks1, hblocks2, hblocke, htail]
      simp [List.append_assoc]
    · unfold orderEntries
      rw [hsplit, List.map_append, List.map_cons, List.flatten_append, List.flatten_cons,
        hblockeXY]
      simp [List.append_assoc]
  · have hblocks : ord.dedup.map (fun p => (X ++ e :: Y).filter (fun x => x.path = p))
        = ord.dedup.map (fun p => (X ++ Y).filter (fun x => x.path = p)) := by
      apply List.map_congr_left
      intro q hq
      refine filter_middle_neg _ _ ?_ X Y
      simp only [decide_eq_false_iff_not]
      intro hqe
      exact hp (hqe ▸ hq)
    have htail : (X ++ e :: Y).filter (fun x => decide (x.path ∉ ord.dedup))
        = X.filter (fun x => decide (x.path ∉ ord.dedup))
          ++ e :: Y.filter (fun x => decide (x.path ∉ ord.dedup)) :=
      filter_middle_pos _ _ (by simp [hp]) X Y
    refine ⟨(ord.dedup.map (fun p => (X ++ Y).filter (fun x => x.path = p))).flatten
        ++ X.filter (fun x => decide (x.path ∉ ord.dedup)),
      Y.filter (fun x => decide (x.path ∉ ord.dedup)), ?_, ?_⟩
    · unfold orderEntries
      rw [hblocks, htail]
      simp [List.append_assoc]
    · unfold orderEntries
      rw [List.filter_append]
      simp [List.append_assoc]

/-- Every binding of an updated dict is an old binding or the new one. -/
theorem mem_dinsert (m : List (Str × Str)) (k0 v0 k v : Str)
    (h : (k, v) ∈ dinsert m k0 v0) : (k, v) ∈ m ∨ (k = k0 ∧ v = v0) := by
  induction m with
  | nil =>
    simp [dinsert] at h
    exact Or.inr h
  | cons kv rest ih =>
    obtain ⟨k1, v1⟩ := kv
    by_cases hk : k1 = k0
    · simp [dinsert, hk] at h
      rcases h with ⟨hA, hB⟩ | hm
      · exact Or.inr ⟨hA, hB⟩
      · exact Or.inl (List.mem_cons_of_mem _ hm)
    · simp [dinsert, hk] at h
      rcases h with ⟨hA, hB⟩ | hm
      · exact Or.inl (by simp [hA, hB])
      · rcases ih hm with h1 | h2
        · exact Or.inl (List.mem_cons_of_mem _ h1)
        · exact Or.inr h2

/-- Every binding of the hash-to-path map comes from a file entry of the
underlying collection whose hash is present: entries without a hash are
never admitted. -/
theorem mem_filesMapOf (items : List FlatEntry) (h p : Str)
    (hm : (h, p) ∈ filesMapOf items) :
    ∃ e ∈ items, e.kind = s "file" ∧ e.ident = some h ∧ e.path = p := by
  induction items using List.reverseRecOn with
  | nil => simp [filesMapOf] at hm
  | append_singleton l x ih =>
    rw [filesMapOf, List.foldl_append, List.foldl_cons, List.foldl_nil] at hm
    by_cases hrel : ∃ hh, x.ident = some hh ∧ x.kind = s "file"
    · obtain ⟨hh, hid, hkind⟩ := hrel
      rw [show List.foldl fmStep [] l = filesMapOf l from rfl] at hm
      simp only [fmStep, hid, hkind, if_true] at hm
      rcases mem_dinsert _ _ _ _ _ hm with hold | ⟨hk, hv⟩
      · obtain ⟨e, he, hprop⟩ := ih hold
        exact ⟨e, List.mem_append_left _ he, hprop⟩
      · exact ⟨x, List.mem_append_right _ (List.mem_singleton.mpr rfl),
          hkind, by rw [hid, hk], hv.symm⟩
    · have hid : fmStep (List.foldl fmStep [] l) x = List.foldl fmStep [] l := by
        rw [fmStep]
        match hx : x.ident with
        | none => rfl
        | some hh =>
          have hkind : ¬(x.kind = s "file") := fun hk => hrel ⟨hh, hx, hk⟩
          simp [hkind]
      rw [hid] at hm
      obtain ⟨e, he, hprop⟩ := ih hm
      exact ⟨e, List.mem_append_left _ he, hprop⟩

/-- The step of the map construction ignores any entry that is not a
file entry carrying a hash. -/
theorem fmStep_id (e : FlatEntry)
    (he : e.kind ≠ s "file" ∨ e.ident = none) (m : List (Str × Str)) :
    fmStep m e = m := by
  rw [fmStep]
  match hx : e.ident with
  | none => rfl
  | some hh =>
    rcases he with hk | hid
    · simp only [hk, if_false]
    · rw [hx] at hid
      exact absurd hid (by simp)

/-- An entry that is neither a hashed file nor a directory leaves both the
hash-to-path map and the directory-path set unchanged wherever it is
inserted, hence the whole diff ignores it. -/
theorem diffFromItems_ignores (ord : List Str) (X Y items2 : List FlatEntry)
    (e : FlatEntry) (hfile : e.kind ≠ s "file" ∨ e.ident = none)
    (hdir : e.kind ≠ s "directory") :
    diffFromItems ord (X ++ e :: Y) items2 = diffFromItems ord (X ++ Y) items2 ∧
    diffFromItems ord items2 (X ++ e :: Y) = diffFromItems ord items2 (X ++ Y) := by
  have hmap : filesMapOf (orderEntries ord (X ++ e :: Y))
      = filesMapOf (orderEntries ord (X ++ Y)) := by
    obtain ⟨A, B, h1, h2⟩ := orderEntries_middle ord X Y e
    rw [h1, h2, filesMapOf, filesMapOf]
    exact foldl_middle_id _ _ (fmStep_id e hfile) A B []
  have hdirs : dirsOfItems (X ++ e :: Y) = dirsOfItems (X ++ Y) := by
    unfold dirsOfItems
    rw [filter_middle_neg _ _ (by simp [hdir]) X Y]
  constructor
  · unfold diffFromItems
    rw [hmap, hdirs]
  · unfold diffFromItems
    rw [hmap, hdirs]

/-- Flattening distributes over appending two children mappings at the
same level. -/
theorem flatEntries_append : ∀ (a b : EntryList) (cur : Str),
    flatEntries (elAppend a b) cur = flatEntries a cur ++ flatEntries b cur
  | .nil, b, cur => by simp [elAppend, flatEntries]
  | .cons n t r, b, cur => by
    show flatEntries (.cons n t (elAppend r b)) cur = _
    cases t <;> simp [flatEntries, flatEntries_append r b cur, List.append_assoc]

/-- The kind strings of error entries differ from file and directory. -/
theorem error_ne_file : s "error" ≠ s "file" := by decide

/-- Error entries are not directory entries. -/
theorem error_ne_dir : s "error" ≠ s "directory" := by decide

/-- File entries are not directory entries. -/
theorem file_ne_dir : s "file" ≠ s "directory" := by decide

/-- Projection of an evaluation result onto everything except the
similarity score. -/
def nonSimProj (r : EvalResult) :
    Option Nat × Option Nat × Option Nat × Option Nat × Option Nat × Option Nat ×
    Option Nat × Option Nat × Option Nat × Option Nat × Option Nat ×
    Option Details × Option Str :=
  (r.files_added, r.files_deleted, r.files_unchanged, r.files_moved,
   r.files_renamed, r.files_moved_renamed, r.dirs_added, r.dirs_deleted,
   r.dirs_unchanged, r.dirs_moved, r.dirs_renamed, r.details, r.diff_error)

/-- Everything but the similarity field is independent of the similarity
passed to the packaging step. -/
theorem buildResult_nonSim (s1 s2 : ℚ) (d : Except Str DiffFields) :
    nonSimProj (buildResult s1 d) = nonSimProj (buildResult s2 d) := by
  cases d <;> rfl

/-- C3, amended: an unlistable directory is emitted as a `directory` node
whose children mapping is the single pseudo-entry `__listing_error__`
bound to the diagnostic string; its siblings are still processed; the
flattener turns it into an ordinary directory entry and drops the
pseudo-entry (whose value is a plain string, kind `unknown`), so no
`error`-kind entry arises from it. An `error` node arises only from an
item whose type check raises, and it does flatten to an `error`-kind
entry; `error`-kind entries are ignored by both diff phases wherever
they occur in either snapshot. -/
theorem C3_unlistable_dir_pseudo_entry :
    (elGet builtUnlistable (s "bad")
      = some (.directory (.cons (s "__listing_error__")
          (.pystr (s "Access denied or error: boom")) .nil))) ∧
    ((elGet builtUnlistable (s "alpha")).isSome = true ∧
      (elGet builtUnlistable (s "zed")).isSome = true) ∧
    ((⟨s "bad", s "directory", none⟩ : FlatEntry) ∈ flatEntries builtUnlistable (s ".") ∧
      (flatEntries builtUnlistable (s ".")).all (fun e => decide (e.kind ≠ s "error")) = true) ∧
    (elGet builtBadItem (s "x") = some (.errorNode (s "Error accessing item: denied")) ∧
      flatEntries builtBadItem (s ".")
        = [⟨s "x", s "error", some (s "Error accessing item: denied")⟩]) ∧
    (∀ (ord : List Str) (X Y items2 : List FlatEntry) (pth msg : Str),
      diffFromItems ord (X ++ (⟨pth, s "error", some msg⟩ : FlatEntry) :: Y) items2
        = diffFromItems ord (X ++ Y) items2 ∧
      diffFromItems ord items2 (X ++ (⟨pth, s "error", some msg⟩ : FlatEntry) :: Y)
        = diffFromItems ord items2 (X ++ Y)) :=
  ⟨rfl, ⟨by decide, by decide⟩, ⟨by decide, by decide⟩, ⟨rfl, by decide⟩,
   fun ord X Y items2 pth msg =>
     diffFromItems_ignores ord X Y items2 _ (Or.inl error_ne_file) error_ne_dir⟩

/-- C9: the hash-to-path maps admit only file entries whose hash is
present, so a file whose hash is absent (the file could not be read)
is invisible to the diff: inserting such an entry anywhere in either
flattened snapshot changes nothing, and adding such a file to a snapshot
leaves every count and detail list of the evaluation unchanged (only the
similarity, which sees the extra node, may move). -/
theorem C9_hashless_files_excluded :
    (∀ (items : List FlatEntry) (h p : Str), (h, p) ∈ filesMapOf items →
      ∃ e ∈ items, e.kind = s "file" ∧ e.ident = some h ∧ e.path = p) ∧
    (∀ (ord : List Str) (X Y items2 : List FlatEntry) (n : Str),
      diffFromItems ord (X ++ (⟨n, s "file", none⟩ : FlatEntry) :: Y) items2
        = diffFromItems ord (X ++ Y) items2 ∧
      diffFromItems ord items2 (X ++ (⟨n, s "file", none⟩ : FlatEntry) :: Y)
        = diffFromItems ord items2 (X ++ Y)) ∧
    (∀ (ord : List Str) (es : EntryList) (d2 : TreeDict) (n : Str),
      (evaluate_restructuring_with_hashes true none ord
          (.mk (elAppend es (.cons n (.file none) .nil))) d2).map nonSimProj
        = (evaluate_restructuring_with_hashes true none ord (.mk es) d2).map nonSimProj) := by
  refine ⟨mem_filesMapOf, ?_, ?_⟩
  · intro ord X Y items2 n
    exact diffFromItems_ignores ord X Y items2 _ (Or.inr rfl) file_ne_dir
  · intro ord es d2 n
    have hitems : flatEntries (elAppend es (.cons n (.file none) .nil)) (s ".")
        = flatEntries es (s ".") ++ [⟨n, s "file", none⟩] := by
      rw [flatEntries_append]
      rfl
    have hdiff : diffBody none ord (.mk (elAppend es (.cons n (.file none) .nil))) d2
        = diffBody none ord (.mk es) d2 := by
      cases d2 with
      | notDict => rfl
      | mk es2 =>
        show Except.ok (diffFromItems ord
            (flatEntries (elAppend es (.cons n (.file none) .nil)) (s "."))
            (flatEntries es2 (s "."))) = Except.ok _
        rw [hitems]
        have hig := (diffFromItems_ignores ord (flatEntries es (s ".")) []
          (flatEntries es2 (s ".")) ⟨n, s "file", none⟩ (Or.inr rfl) file_ne_dir).1
        rw [List.append_nil] at hig
        exact congrArg Except.ok hig
    rw [evaluate_true_eq, evaluate_true_eq, hdiff]
    simp only [Option.map_some']
    exact congrArg some (buildResult_nonSim _ _ _)

/-- The keys of an updated dict are the old keys plus possibly the new one. -/
theorem mem_dinsert_keys (m : List (Str × Str)) (k v a : Str) :
    a ∈ (dinsert m k v).map Prod.fst ↔ a ∈ m.map Prod.fst ∨ a = k := by
  induction m with
  | nil => simp [dinsert]
  | cons kv rest ih =>
    obtain ⟨k0, v0⟩ := kv
    by_cases hk : k0 = k
    · simp [dinsert, hk]
      tauto
    · simp [dinsert, hk, ih]
      tauto

/-- Updating a dict with duplicate-free keys keeps the keys duplicate-free. -/
theorem nodup_dinsert_keys (m : List (Str × Str)) (k v : Str)
    (hnd : (m.map Prod.fst).Nodup) : ((dinsert m k v).map Prod.fst).Nodup := by
  induction m with
  | nil => simp [dinsert]
  | cons kv rest ih =>
    obtain ⟨k0, v0⟩ := kv
    simp only [List.map_cons, List.nodup_cons] at hnd
    rw [dinsert]
    by_cases hk : k0 = k
    · rw [if_pos hk]
      simp only [List.map_cons, List.nodup_cons]
      exact ⟨hnd.1, hnd.2⟩
    · rw [if_neg hk]
      simp only [List.map_cons, List.nodup_cons]
      refine ⟨?_, ih hnd.2⟩
      rw [mem_dinsert_keys]
      rintro (hmem | heq)
      · exact hnd.1 hmem
      · exact hk heq

/-- The step of the map construction preserves duplicate-free keys. -/
theorem fmStep_keys_nodup (m : List (Str × Str)) (x : FlatEntry)
    (hnd : (m.map Prod.fst).Nodup) : ((fmStep m x).map Prod.fst).Nodup := by
  cases hx : x.ident with
  | none => simpa only [fmStep, hx] using hnd
  | some hh =>
    by_cases hkind : x.kind = s "file"
    · simp only [fmStep, hx, hkind, if_true]
      exact nodup_dinsert_keys _ _ _ hnd
    · simpa only [fmStep, hx, hkind, if_false] using hnd

/-- The step of the map construction can only grow the key set. -/
theorem fmStep_keys_mono (m : List (Str × Str)) (x : FlatEntry) (a : Str)
    (ha : a ∈ m.map Prod.fst) : a ∈ (fmStep m x).map Prod.fst := by
  cases hx : x.ident with
  | none => simpa only [fmStep, hx] using ha
  | some hh =>
    by_cases hkind : x.kind = s "file"
    · simp only [fmStep, hx, hkind, if_true, mem_dinsert_keys]
      exact Or.inl ha
    · simpa only [fmStep, hx, hkind, if_false] using ha

/-- The keys of the hash-to-path map are duplicate-free. -/
theorem filesMapOf_keys_nodup (l : List FlatEntry) :
    ((filesMapOf l).map Prod.fst).Nodup := by
  induction l using List.reverseRecOn with
  | nil => simp [filesMapOf]
  | append_singleton l x ih =>
    rw [filesMapOf, List.foldl_append, List.foldl_cons, List.foldl_nil]
    exact fmStep_keys_nodup _ _ ih

/-- The key set of the hash-to-path map is exactly the set of present
hashes of file entries. -/
theorem mem_filesMapOf_keys (l : List FlatEntry) (h : Str) :
    h ∈ (filesMapOf l).map Prod.fst ↔
      ∃ e ∈ l, e.kind = s "file" ∧ e.ident = some h := by
  constructor
  · intro hmem
    obtain ⟨⟨h', p⟩, hpair, hfst⟩ := List.mem_map.mp hmem
    have hfst' : h' = h := hfst
    obtain ⟨e, he, hk, hi, _⟩ := mem_filesMapOf l h' p hpair
    exact ⟨e, he, hk, by rw [hi, hfst']⟩
  · intro hex
    induction l using List.reverseRecOn with
    | nil => simp at hex
    | append_singleton l x ih =>
      rw [filesMapOf, List.foldl_append, List.foldl_cons, List.foldl_nil,
        show List.foldl fmStep [] l = filesMapOf l from rfl]
      obtain ⟨e, he, hk, hi⟩ := hex
      rcases List.mem_append.mp he with hl | hx
      · exact fmStep_keys_mono _ _ _ (ih ⟨e, hl, hk, hi⟩)
      · have hex2 : e = x := List.mem_singleton.mp hx
        subst hex2
        simp only [fmStep, hi, hk, if_true, mem_dinsert_keys]
        exact Or.inr trivial

/-- Membership in the modelled set-iteration order is membership in the
underlying collection. -/
theorem mem_orderEntries (ord : List Str) (items : List FlatEntry) (e : FlatEntry) :
    e ∈ orderEntries ord items ↔ e ∈ items := by
  unfold orderEntries
  rw [List.mem_append, List.mem_flatten]
  constructor
  · rintro (⟨bl, hbl, hebl⟩ | htail)
    · obtain ⟨p, _, hfil⟩ := List.mem_map.mp hbl
      exact List.mem_of_mem_filter (hfil ▸ hebl)
    · exact List.mem_of_mem_filter htail
  · intro he
    by_cases hp : e.path ∈ ord.dedup
    · refine Or.inl ⟨items.filter (fun x => x.path = e.path), ?_, ?_⟩
      · exact List.mem_map.mpr ⟨e.path, hp, rfl⟩
      · exact List.mem_filter.mpr ⟨he, by simp⟩
    · exact Or.inr (List.mem_filter.mpr ⟨he, by simp [hp]⟩)

/-- The key set of the map built from any modelled iteration order is the
set of present file hashes of the snapshot. -/
theorem mem_keys_ordered (ord : List Str) (items : List FlatEntry) (h : Str) :
    h ∈ (filesMapOf (orderEntries ord items)).map Prod.fst ↔
      ∃ e ∈ items, e.kind = s "file" ∧ e.ident = some h := by
  rw [mem_filesMapOf_keys]
  constructor
  · rintro ⟨e, he, hprop⟩
    exact ⟨e, (mem_orderEntries ord items e).mp he, hprop⟩
  · rintro ⟨e, he, hprop⟩
    exact ⟨e, (mem_orderEntries ord items e).mpr he, hprop⟩

/-- The key lists produced under two iteration orders are permutations of
one another. -/
theorem keys_perm (ord1 ord2 : List Str) (items : List FlatEntry) :
    ((filesMapOf (orderEntries ord1 items)).map Prod.fst).Perm
      ((filesMapOf (orderEntries ord2 items)).map Prod.fst) := by
  refine (List.perm_ext_iff_of_nodup (filesMapOf_keys_nodup _) (filesMapOf_keys_nodup _)).mpr ?_
  intro a
  rw [mem_keys_ordered, mem_keys_ordered]

/-- The added-file count of the diff, unfolded. -/
theorem diffFromItems_files_added (ord : List Str) (items1 items2 : List FlatEntry) :
    (diffFromItems ord items1 items2).files_added
      = (((filesMapOf (orderEntries ord items2)).map Prod.fst).filter
          (fun h => decide (h ∉ (filesMapOf (orderEntries ord items1)).map Prod.fst))).length := rfl

/-- The deleted-file count of the diff, unfolded. -/
theorem diffFromItems_files_deleted (ord : List Str) (items1 items2 : List FlatEntry) :
    (diffFromItems ord items1 items2).files_deleted
      = (((filesMapOf (orderEntries ord items1)).map Prod.fst).filter
          (fun h => decide (h ∉ (filesMapOf (orderEntries ord items2)).map Prod.fst))).length := rfl

/-- The unchanged-directory count of the diff, unfolded. -/
theorem diffFromItems_dirs_unchanged (ord : List Str) (items1 items2 : List FlatEntry) :
    (diffFromItems ord items1 items2).dirs_unchanged
      = ((dirsOfItems items1).filter (fun d => decide (d ∈ dirsOfItems items2))).length := rfl

/-- The count of one set-difference of hash keys does not depend on the
iteration orders used to build the two maps. -/
theorem keys_sdiff_length_eq (ord1 ord2 : List Str) (itemsA itemsB : List FlatEntry) :
    (((filesMapOf (orderEntries ord1 itemsA)).map Prod.fst).filter
        (fun h => decide (h ∉ (filesMapOf (orderEntries ord1 itemsB)).map Prod.fst))).length
      = (((filesMapOf (orderEntries ord2 itemsA)).map Prod.fst).filter
          (fun h => decide (h ∉ (filesMapOf (orderEntries ord2 itemsB)).map Prod.fst))).length := by
  have hstep : ((filesMapOf (orderEntries ord1 itemsA)).map Prod.fst).filter
      (fun h => decide (h ∉ (filesMapOf (orderEntries ord1 itemsB)).map Prod.fst))
    = ((filesMapOf (orderEntries ord1 itemsA)).map Prod.fst).filter
      (fun h => decide (h ∉ (filesMapOf (orderEntries ord2 itemsB)).map Prod.fst)) := by
    apply List.filter_congr
    intro a _
    apply decide_eq_decide.mpr
    rw [mem_keys_ordered, mem_keys_ordered]
  rw [hstep]
  exact ((keys_perm ord1 ord2 itemsA).filter _).length_eq

/-- C7, amended: a fixed set-iteration order determines the whole result
(the evaluation is a pure function of the inputs and the order), and the
added-file, deleted-file and unchanged-directory counts agree across all
iteration orders; but the directory move/rename tie-breaking, which pops
from sets, can legitimately differ between runs whose set order differs,
changing the remaining directory counts and pairings. -/
theorem C7_order_invariant_fields (ord1 ord2 : List Str) (d1 d2 : TreeDict) :
    (evaluate_restructuring_with_hashes true none ord1 d1 d2).map
        (fun r => (r.files_added, r.files_deleted, r.dirs_unchanged))
      = (evaluate_restructuring_with_hashes true none ord2 d1 d2).map
          (fun r => (r.files_added, r.files_deleted, r.dirs_unchanged)) := by
  rw [evaluate_true_eq, evaluate_true_eq]
  simp only [Option.map_some']
  apply congrArg some
  cases d1 with
  | notDict => rfl
  | mk es1 =>
    cases d2 with
    | notDict => rfl
    | mk es2 =>
      have hok1 : diffBody none ord1 (TreeDict.mk es1) (TreeDict.mk es2)
          = .ok (diffFromItems ord1 (flatEntries es1 (s ".")) (flatEntries es2 (s "."))) := rfl
      have hok2 : diffBody none ord2 (TreeDict.mk es1) (TreeDict.mk es2)
          = .ok (diffFromItems ord2 (flatEntries es1 (s ".")) (flatEntries es2 (s "."))) := rfl
      rw [hok1, hok2]
      show (some (diffFromItems ord1 (flatEntries es1 (s ".")) (flatEntries es2 (s "."))).files_added,
            some (diffFromItems ord1 (flatEntries es1 (s ".")) (flatEntries es2 (s "."))).files_deleted,
            some (diffFromItems ord1 (flatEntries es1 (s ".")) (flatEntries es2 (s "."))).dirs_unchanged)
          = (some (diffFromItems ord2 (flatEntries es1 (s ".")) (flatEntries es2 (s "."))).files_added,
            some (diffFromItems ord2 (flatEntries es1 (s ".")) (flatEntries es2 (s "."))).files_deleted,
            some (diffFromItems ord2 (flatEntries es1 (s ".")) (flatEntries es2 (s "."))).dirs_unchanged)
      rw [diffFromItems_files_added, diffFromItems_files_added,
        diffFromItems_files_deleted, diffFromItems_files_deleted,
        diffFromItems_dirs_unchanged, diffFromItems_dirs_unchanged,
        keys_sdiff_length_eq ord1 ord2 (flatEntries es2 (s ".")) (flatEntries es1 (s ".")),
        keys_sdiff_length_eq ord1 ord2 (flatEntries es1 (s ".")) (flatEntries es2 (s "."))]

/-- A popped element belongs to the candidate set. -/
theorem pick_mem (ord cands : List Str) (m : Str) (h : pick ord cands = some m) :
    m ∈ cands := by
  unfold pick at h
  cases hf : ord.find? (fun x => decide (x ∈ cands)) with
  | some x =>
    rw [hf] at h
    cases h
    simpa using List.find?_some hf
  | none =>
    rw [hf] at h
    exact List.mem_of_mem_head? h

/-- Members of the modelled iteration order of a set are members of the set. -/
theorem mem_orderBy (ord xs : List Str) (x : Str) (h : x ∈ orderBy ord xs) : x ∈ xs := by
  unfold orderBy at h
  rcases List.mem_append.mp h with h1 | h2
  · simpa using (List.mem_filter.mp h1).2
  · exact List.mem_of_mem_filter h2

/-- A filter and its complement split the length of a list. -/
theorem length_filter_split {α : Type} (l : List α) (p : α → Bool) :
    (l.filter p).length + (l.filter (fun x => !(p x))).length = l.length := by
  induction l with
  | nil => rfl
  | cons a l ih =>
    cases hp : p a <;> simp [List.filter_cons, hp, Nat.add_assoc, Nat.add_left_comm, ih]
    · omega
    · omega

/-- Filtering a duplicate-free list by membership in a duplicate-free
subset keeps exactly the subset's elements. -/
theorem filter_mem_length (D P : List Str) (hD : D.Nodup) (hP : P.Nodup)
    (hsub : ∀ x ∈ P, x ∈ D) :
    (D.filter (fun d => decide (d ∈ P))).length = P.length := by
  have hperm : (D.filter (fun d => decide (d ∈ P))).Perm P := by
    refine (List.perm_ext_iff_of_nodup (hD.filter _) hP).mpr ?_
    intro a
    rw [List.mem_filter]
    constructor
    · rintro ⟨_, ha⟩
      simpa using ha
    · intro ha
      exact ⟨hsub a ha, by simpa using ha⟩
  exact hperm.length_eq

/-- Removing a duplicate-free subset from a duplicate-free list leaves
its length minus the subset's length. -/
theorem filter_not_mem_length (D P : List Str) (hD : D.Nodup) (hP : P.Nodup)
    (hsub : ∀ x ∈ P, x ∈ D) :
    (D.filter (fun d => decide (d ∉ P))).length + P.length = D.length := by
  have hsplit := length_filter_split D (fun d => decide (d ∉ P))
  have hcompl : D.filter (fun d => !(decide (d ∉ P))) = D.filter (fun d => decide (d ∈ P)) := by
    apply List.filter_congr
    intro a _
    simp
  rw [hcompl, filter_mem_length D P hD hP hsub] at hsplit
  exact hsplit

/-- The invariants of the Phase B loop: every processed deleted candidate
and every matched added candidate is consumed exactly once, and the
move and rename counters total the number of consumed pairs. -/
theorem bfold_inv (setOrd addedCand D : List Str) :
    ∀ (L : List Str) (st : BState),
      (∀ x ∈ L, x ∈ D) →
      st.moved + st.renamed = st.processedD.length →
      st.processedD.length = st.matched.length →
      st.matched.Nodup →
      (∀ x ∈ st.matched, x ∈ addedCand) →
      st.processedD.Nodup →
      (∀ x ∈ st.processedD, x ∈ D) →
      ((L.foldl (bStep setOrd addedCand) st).moved
          + (L.foldl (bStep setOrd addedCand) st).renamed
        = (L.foldl (bStep setOrd addedCand) st).processedD.length) ∧
      ((L.foldl (bStep setOrd addedCand) st).processedD.length
        = (L.foldl (bStep setOrd addedCand) st).matched.length) ∧
      (L.foldl (bStep setOrd addedCand) st).matched.Nodup ∧
      (∀ x ∈ (L.foldl (bStep setOrd addedCand) st).matched, x ∈ addedCand) ∧
      (L.foldl (bStep setOrd addedCand) st).processedD.Nodup ∧
      (∀ x ∈ (L.foldl (bStep setOrd addedCand) st).processedD, x ∈ D) := by
  intro L
  induction L with
  | nil =>
    intro st _ h1 h2 h3 h4 h5 h6
    exact ⟨h1, h2, h3, h4, h5, h6⟩
  | cons dd L ih =>
    intro st hL h1 h2 h3 h4 h5 h6
    rw [List.foldl_cons]
    have hddD : dd ∈ D := hL dd (List.mem_cons_self dd L)
    have hLsub : ∀ x ∈ L, x ∈ D := fun x hx => hL x (List.mem_cons_of_mem dd hx)
    set st' := bStep setOrd addedCand st dd with hst'
    have hstep : st'.moved + st'.renamed = st'.processedD.length ∧
        st'.processedD.length = st'.matched.length ∧
        st'.matched.Nodup ∧ (∀ x ∈ st'.matched, x ∈ addedCand) ∧
        st'.processedD.Nodup ∧ (∀ x ∈ st'.processedD, x ∈ D) := by
      rw [hst', bStep]
      by_cases hproc : dd ∈ st.processedD
      · rw [if_pos hproc]
        exact ⟨h1, h2, h3, h4, h5, h6⟩
      · rw [if_neg hproc]
        have consume : ∀ (m : Str) (cands : List Str),
            cands = addedCand.filter (fun ad => decide (ad ∉ st.matched)
                && decide (basenameStr ad = basenameStr dd)) ∨
            cands = addedCand.filter (fun ad => decide (ad ∉ st.matched)
                && decide (dirnameStr ad = dirnameStr dd)) →
            m ∈ cands →
            (m ∈ addedCand ∧ m ∉ st.matched) := by
          intro m cands hc hm
          rcases hc with hc | hc <;> rw [hc] at hm <;>
            obtain ⟨hmem, hpred⟩ := List.mem_filter.mp hm <;>
            exact ⟨hmem, by simpa using (Bool.and_elim_left hpred)⟩
        have hmn : ∀ (m : Str), m ∈ addedCand → m ∉ st.matched →
            (st.matched ++ [m]).Nodup ∧ (∀ x ∈ st.matched ++ [m], x ∈ addedCand)
              ∧ (st.processedD ++ [dd]).Nodup ∧ (∀ x ∈ st.processedD ++ [dd], x ∈ D) := by
          intro m hmadd hmnot
          refine ⟨?_, ?_, ?_, ?_⟩
          · rw [List.nodup_append]
            exact ⟨h3, List.nodup_singleton m, by
              intro x hx hxm
              rw [List.mem_singleton] at hxm
              exact hmnot (hxm ▸ hx)⟩
          · intro x hx
            rcases List.mem_append.mp hx with hx | hx
            · exact h4 x hx
            · rw [List.mem_singleton] at hx
              exact hx ▸ hmadd
          · rw [List.nodup_append]
            exact ⟨h5, List.nodup_singleton dd, by
              intro x hx hxd
              rw [List.mem_singleton] at hxd
              exact hproc (hxd ▸ hx)⟩
          · intro x hx
            rcases List.mem_append.mp hx with hx | hx
            · exact h6 x hx
            · rw [List.mem_singleton] at hx
              exact hx ▸ hddD
        cases hpm : pick setOrd (addedCand.filter (fun ad => decide (ad ∉ st.matched)
            && decide (basenameStr ad = basenameStr dd))) with
        | some m =>
          obtain ⟨hmadd, hmnot⟩ := consume m _ (Or.inl rfl) (pick_mem _ _ _ hpm)
          obtain ⟨hn1, hn2, hn3, hn4⟩ := hmn m hmadd hmnot
          refine ⟨by simp [h1, h2]; omega, by simp [h2], hn1, hn2, hn3, hn4⟩
        | none =>
          cases hpr : pick setOrd (addedCand.filter (fun ad => decide (ad ∉ st.matched)
              && decide (dirnameStr ad = dirnameStr dd))) with
          | some m =>
            obtain ⟨hmadd, hmnot⟩ := consume m _ (Or.inr rfl) (pick_mem _ _ _ hpr)
            obtain ⟨hn1, hn2, hn3, hn4⟩ := hmn m hmadd hmnot
            refine ⟨by simp [h1, h2]; omega, by simp [h2], hn1, hn2, hn3, hn4⟩
          | none => exact ⟨h1, h2, h3, h4, h5, h6⟩
    exact ih st' hLsub hstep.1 hstep.2.1 hstep.2.2.1 hstep.2.2.2.1
      hstep.2.2.2.2.1 hstep.2.2.2.2.2

/-- The final state of the Phase B loop over the directory candidates. -/
def phaseBOf (setOrd : List Str) (dirs1 dirs2 : List Str) : BState :=
  (orderBy setOrd (dirs1.filter (fun d => decide (d ∉ dirs2)))).foldl
    (bStep setOrd (dirs2.filter (fun d => decide (d ∉ dirs1)))) ⟨0, 0, [], [], []⟩

/-- The moved-directory count of the diff, unfolded. -/
theorem diffFromItems_dirs_moved (ord : List Str) (items1 items2 : List FlatEntry) :
    (diffFromItems ord items1 items2).dirs_moved
      = (phaseBOf ord (dirsOfItems items1) (dirsOfItems items2)).moved := rfl

/-- The renamed-directory count of the diff, unfolded. -/
theorem diffFromItems_dirs_renamed (ord : List Str) (items1 items2 : List FlatEntry) :
    (diffFromItems ord items1 items2).dirs_renamed
      = (phaseBOf ord (dirsOfItems items1) (dirsOfItems items2)).renamed := rfl

/-- The deleted-directory count of the diff, unfolded. -/
theorem diffFromItems_dirs_deleted (ord : List Str) (items1 items2 : List FlatEntry) :
    (diffFromItems ord items1 items2).dirs_deleted
      = (((dirsOfItems items1).filter (fun d => decide (d ∉ dirsOfItems items2))).filter
          (fun d => decide (d ∉ (phaseBOf ord (dirsOfItems items1) (dirsOfItems items2)).processedD))).length := rfl

/-- The added-directory count of the diff, unfolded. -/
theorem diffFromItems_dirs_added (ord : List Str) (items1 items2 : List FlatEntry) :
    (diffFromItems ord items1 items2).dirs_added
      = (((dirsOfItems items2).filter (fun d => decide (d ∉ dirsOfItems items1))).filter
          (fun d => decide (d ∉ (phaseBOf ord (dirsOfItems items1) (dirsOfItems items2)).matched))).length := rfl

/-- C10: the directory counts partition the directory-path sets — the
deleted, moved and renamed counts total the number of snapshot-1-only
directory paths, the added, moved and renamed counts total the number of
snapshot-2-only directory paths, and the unchanged count is the number
of directory paths present in both snapshots. -/
theorem C10_directory_counts_partition (ord : List Str) (es1 es2 : EntryList) :
    ∃ r, evaluate_restructuring_with_hashes true none ord (.mk es1) (.mk es2) = some r ∧
      ∃ a d' u m rn : Nat,
        r.dirs_added = some a ∧ r.dirs_deleted = some d' ∧ r.dirs_unchanged = some u ∧
        r.dirs_moved = some m ∧ r.dirs_renamed = some rn ∧
        d' + m + rn = ((dirsOfItems (flatEntries es1 (s "."))).filter
            (fun d => decide (d ∉ dirsOfItems (flatEntries es2 (s "."))))).length ∧
        a + m + rn = ((dirsOfItems (flatEntries es2 (s "."))).filter
            (fun d => decide (d ∉ dirsOfItems (flatEntries es1 (s "."))))).length ∧
        u = ((dirsOfItems (flatEntries es1 (s "."))).filter
            (fun d => decide (d ∈ dirsOfItems (flatEntries es2 (s "."))))).length := by
  refine ⟨_, evaluate_true_eq none ord (.mk es1) (.mk es2), ?_⟩
  have hdCnd : ((dirsOfItems (flatEntries es1 (s "."))).filter
      (fun d => decide (d ∉ dirsOfItems (flatEntries es2 (s "."))))).Nodup :=
    (List.nodup_dedup _).filter _
  have haCnd : ((dirsOfItems (flatEntries es2 (s "."))).filter
      (fun d => decide (d ∉ dirsOfItems (flatEntries es1 (s "."))))).Nodup :=
    (List.nodup_dedup _).filter _
  have hinv := bfold_inv ord
    ((dirsOfItems (flatEntries es2 (s "."))).filter
      (fun d => decide (d ∉ dirsOfItems (flatEntries es1 (s ".")))))
    ((dirsOfItems (flatEntries es1 (s "."))).filter
      (fun d => decide (d ∉ dirsOfItems (flatEntries es2 (s ".")))))
    (orderBy ord ((dirsOfItems (flatEntries es1 (s "."))).filter
      (fun d => decide (d ∉ dirsOfItems (flatEntries es2 (s "."))))))
    ⟨0, 0, [], [], []⟩
    (fun x hx => mem_orderBy ord _ x hx) rfl rfl List.nodup_nil (by simp)
    List.nodup_nil (by simp)
  have hpb : phaseBOf ord (dirsOfItems (flatEntries es1 (s ".")))
      (dirsOfItems (flatEntries es2 (s ".")))
    = (orderBy ord ((dirsOfItems (flatEntries es1 (s "."))).filter
        (fun d => decide (d ∉ dirsOfItems (flatEntries es2 (s ".")))))).foldl
      (bStep ord ((dirsOfItems (flatEntries es2 (s "."))).filter
        (fun d => decide (d ∉ dirsOfItems (flatEntries es1 (s ".")))))) ⟨0, 0, [], [], []⟩ := rfl
  rw [← hpb] at hinv
  obtain ⟨hcnt, hlen, hmnd, hmsub, hpnd, hpsub⟩ := hinv
  refine ⟨(diffFromItems ord (flatEntries es1 (s ".")) (flatEntries es2 (s "."))).dirs_added,
    (diffFromItems ord (flatEntries es1 (s ".")) (flatEntries es2 (s "."))).dirs_deleted,
    (diffFromItems ord (flatEntries es1 (s ".")) (flatEntries es2 (s "."))).dirs_unchanged,
    (diffFromItems ord (flatEntries es1 (s ".")) (flatEntries es2 (s "."))).dirs_moved,
    (diffFromItems ord (flatEntries es1 (s ".")) (flatEntries es2 (s "."))).dirs_renamed,
    rfl, rfl, rfl, rfl, rfl, ?_, ?_, ?_⟩
  · rw [diffFromItems_dirs_deleted, diffFromItems_dirs_moved, diffFromItems_dirs_renamed]
    have hdel := filter_not_mem_length _ _ hdCnd hpnd hpsub
    omega
  · rw [diffFromItems_dirs_added, diffFromItems_dirs_moved, diffFromItems_dirs_renamed]
    have hadd := filter_not_mem_length _ _ haCnd hmnd hmsub
    omega
  · rw [diffFromItems_dirs_unchanged]

/-- Splitting a separator-free string yields the single component. -/
theorem splitSep_no_sep : ∀ (a : Str), sep ∉ a → splitSep a = [a] := by
  intro a
  induction a with
  | nil => intro _; rfl
  | cons c rest ih =>
    intro hmem
    have hc : ¬(c = sep) := fun hc => hmem (hc ▸ List.mem_cons_self c rest)
    have hrest : sep ∉ rest := fun hr => hmem (List.mem_cons_of_mem c hr)
    rw [splitSep, if_neg hc, ih hrest]

/-- Splitting past a separator-free prefix peels off that component. -/
theorem splitSep_append_sep : ∀ (a b : Str), sep ∉ a →
    splitSep (a ++ sep :: b) = a :: splitSep b := by
  intro a
  induction a with
  | nil =>
    intro b _
    show splitSep (sep :: b) = [] :: splitSep b
    rw [splitSep, if_pos rfl]
  | cons c rest ih =>
    intro b hmem
    have hc : ¬(c = sep) := fun hc => hmem (hc ▸ List.mem_cons_self c rest)
    have hrest : sep ∉ rest := fun hr => hmem (List.mem_cons_of_mem c hr)
    show splitSep (c :: (rest ++ sep :: b)) = (c :: rest) :: splitSep b
    rw [splitSep, if_neg hc, ih b hrest]

/-- Joining then splitting separator-free components is the identity. -/
theorem splitSep_joinSep : ∀ (comps : List Str), comps ≠ [] →
    (∀ c ∈ comps, sep ∉ c) → splitSep (joinSep comps) = comps := by
  intro comps
  induction comps with
  | nil => intro h; exact absurd rfl h
  | cons c rest ih =>
    intro _ hfree
    cases rest with
    | nil => exact splitSep_no_sep c (hfree c (List.mem_cons_self c []))
    | cons x xs =>
      show splitSep (c ++ sep :: joinSep (x :: xs)) = c :: x :: xs
      rw [splitSep_append_sep c _ (hfree c (List.mem_cons_self c _)),
        ih (by simp) (fun d hd => hfree d (List.mem_cons_of_mem c hd))]

/-- Joining a nonempty list of nonempty components is nonempty. -/
theorem joinSep_ne_nil : ∀ (comps : List Str), comps ≠ [] →
    (∀ c ∈ comps, c ≠ []) → joinSep comps ≠ [] := by
  intro comps
  cases comps with
  | nil => intro h; exact absurd rfl h
  | cons c rest =>
    intro _ hne
    cases rest with
    | nil => exact hne c (List.mem_cons_self c [])
    | cons x xs =>
      show c ++ sep :: joinSep (x :: xs) ≠ []
      simp

/-- The join of a list with a nonempty tail starts with its head and a
separator. -/
theorem joinSep_cons_ne (c : Str) (rest : List Str) (h : rest ≠ []) :
    joinSep (c :: rest) = c ++ sep :: joinSep rest := by
  cases rest with
  | nil => exact absurd rfl h
  | cons x xs => rfl

/-- Appending one component to a join. -/
theorem joinSep_append_single : ∀ (xs : List Str) (y : Str),
    joinSep (xs ++ [y]) = (if xs = [] then [] else joinSep xs ++ [sep]) ++ y := by
  intro xs
  induction xs with
  | nil => intro y; simp [joinSep]
  | cons c rest ih =>
    intro y
    rw [show (c :: rest) ++ [y] = c :: (rest ++ [y]) from rfl,
      joinSep_cons_ne c (rest ++ [y]) (by simp), ih y]
    cases rest with
    | nil => simp [joinSep]
    | cons x xs2 =>
      rw [if_neg (by simp), if_neg (by simp), joinSep_cons_ne c (x :: xs2) (by simp)]
      simp [List.append_assoc]

/-- A well-formed path: a nonempty slash-joined sequence of nonempty
separator-free names, as produced by walking a real directory tree
(`os.listdir` never yields empty names or names containing the
separator). -/
def WfPath (p : Str) : Prop :=
  ∃ comps, comps ≠ [] ∧ (∀ c ∈ comps, c ≠ [] ∧ sep ∉ c) ∧ p = joinSep comps

/-- Members of a list's front part are members of the list. -/
theorem mem_dropLast_mem {α : Type} : ∀ (l : List α) (x : α), x ∈ l.dropLast → x ∈ l := by
  intro l
  induction l with
  | nil => intro x hx; simp at hx
  | cons a rest ih =>
    intro x hx
    cases rest with
    | nil => simp at hx
    | cons b bs =>
      rw [List.dropLast_cons₂] at hx
      rcases List.mem_cons.mp hx with h | h
      · exact h ▸ List.mem_cons_self a _
      · exact List.mem_cons_of_mem a (ih x h)

/-- The basename of a well-formed path is the last component and the
dirname is the join of the others. -/
theorem wfPath_base_dir (comps : List Str) (hne : comps ≠ [])
    (hfree : ∀ c ∈ comps, c ≠ [] ∧ sep ∉ c) :
    basenameStr (joinSep comps) = comps.getLastD []
      ∧ dirnameStr (joinSep comps) = joinSep comps.dropLast := by
  have hsplit : splitSep (joinSep comps) = comps :=
    splitSep_joinSep comps hne (fun c hc => (hfree c hc).2)
  constructor
  · rw [basenameStr, hsplit]
  · rw [dirnameStr, hsplit]

/-- Two well-formed paths with the same parent directory and the same
final name component are the same path. -/
theorem wfPath_inj (p1 p2 : Str) (h1 : WfPath p1) (h2 : WfPath p2)
    (hd : dirnameStr p1 = dirnameStr p2) (hb : basenameStr p1 = basenameStr p2) :
    p1 = p2 := by
  obtain ⟨c1, hne1, hfree1, hp1⟩ := h1
  obtain ⟨c2, hne2, hfree2, hp2⟩ := h2
  obtain ⟨hb1, hd1⟩ := wfPath_base_dir c1 hne1 hfree1
  obtain ⟨hb2, hd2⟩ := wfPath_base_dir c2 hne2 hfree2
  rw [hp1, hp2] at hd hb ⊢
  rw [hb1, hb2] at hb
  rw [hd1, hd2] at hd
  have hrecon1 := List.dropLast_append_getLast hne1
  have hrecon2 := List.dropLast_append_getLast hne2
  by_cases hdl1 : c1.dropLast = []
  · by_cases hdl2 : c2.dropLast = []
    · have hlast : c1.getLast hne1 = c2.getLast hne2 := by
        rw [List.getLastD_eq_getLast?, List.getLastD_eq_getLast?,
          List.getLast?_eq_getLast c1 hne1, List.getLast?_eq_getLast c2 hne2] at hb
        simpa using hb
      have hc : c1 = c2 := by
        rw [← hrecon1, ← hrecon2, hdl1, hdl2, hlast]
      rw [hc]
    · exfalso
      have : joinSep c2.dropLast ≠ [] :=
        joinSep_ne_nil c2.dropLast hdl2
          (fun c hc => (hfree2 c (mem_dropLast_mem c2 c hc)).1)
      rw [hdl1] at hd
      exact this hd.symm
  · by_cases hdl2 : c2.dropLast = []
    · exfalso
      have : joinSep c1.dropLast ≠ [] :=
        joinSep_ne_nil c1.dropLast hdl1
          (fun c hc => (hfree1 c (mem_dropLast_mem c1 c hc)).1)
      rw [hdl2] at hd
      exact this hd
    · have hdls : c1.dropLast = c2.dropLast := by
        have hs1 : splitSep (joinSep c1.dropLast) = c1.dropLast :=
          splitSep_joinSep _ hdl1 (fun c hc => (hfree1 c (mem_dropLast_mem c1 c hc)).2)
        have hs2 : splitSep (joinSep c2.dropLast) = c2.dropLast :=
          splitSep_joinSep _ hdl2 (fun c hc => (hfree2 c (mem_dropLast_mem c2 c hc)).2)
        rw [← hs1, ← hs2, hd]
      have hlast : c1.getLast hne1 = c2.getLast hne2 := by
        rw [List.getLastD_eq_getLast?, List.getLastD_eq_getLast?,
          List.getLast?_eq_getLast c1 hne1, List.getLast?_eq_getLast c2 hne2] at hb
        simpa using hb
      have : c1 = c2 := by rw [← hrecon1, ← hrecon2, hdls, hlast]
      rw [this]

/-- Well-formedness of a children mapping as produced by the walker:
every name is nonempty and separator-free, recursively (`os.listdir`
yields no empty names and no names containing the path separator). -/
def wfEntries : EntryList → Bool
  | .nil => true
  | .cons n (.directory cs) r =>
    decide (n ≠ []) && decide (sep ∉ n) && wfEntries cs && wfEntries r
  | .cons n (.file _) r => decide (n ≠ []) && decide (sep ∉ n) && wfEntries r
  | .cons n (.errorNode _) r => decide (n ≠ []) && decide (sep ∉ n) && wfEntries r
  | .cons n (.pystr _) r => decide (n ≠ []) && decide (sep ∉ n) && wfEntries r
  | .cons n .malformed r => decide (n ≠ []) && decide (sep ∉ n) && wfEntries r

/-- The item path of one flattened entry is well-formed when its name is
and the prefix is the root marker or well-formed. -/
theorem itemPath_wf (cur n : Str) (hn : n ≠ [] ∧ sep ∉ n)
    (hcur : cur = s "." ∨ WfPath cur) :
    WfPath ((if cur = s "." then [] else cur ++ [sep]) ++ n) := by
  by_cases hroot : cur = s "."
  · rw [if_pos hroot]
    exact ⟨[n], by simp, by simpa using hn, rfl⟩
  · rw [if_neg hroot]
    rcases hcur with hc | ⟨comps, hne, hfree, hjoin⟩
    · exact absurd hc hroot
    · refine ⟨comps ++ [n], by simp, ?_, ?_⟩
      · intro c hc
        rcases List.mem_append.mp hc with hc | hc
        · exact hfree c hc
        · rw [List.mem_singleton] at hc
          exact hc ▸ hn
      · rw [joinSep_append_single, if_neg hne, hjoin]

/-- Every path in the flat collection of a well-formed children mapping is
a well-formed path, provided the current prefix is the root marker or
itself well-formed. -/
theorem flat_paths_wf : ∀ (es : EntryList) (cur : Str), wfEntries es = true →
    (cur = s "." ∨ WfPath cur) → ∀ e ∈ flatEntries es cur, WfPath e.path
  | .nil, cur => by
    intro _ _ e he
    simp [flatEntries] at he
  | .cons n (.directory cs) r, cur => by
    intro hwf hcur e he
    rw [wfEntries] at hwf
    simp only [Bool.and_eq_true, decide_eq_true_eq] at hwf
    have hpath := itemPath_wf cur n ⟨hwf.1.1.1, hwf.1.1.2⟩ hcur
    simp only [flatEntries] at he
    rcases List.mem_append.mp he with hh | ht
    · rcases List.mem_cons.mp hh with hfst | hcs
      · rw [hfst]
        exact hpath
      · exact flat_paths_wf cs _ hwf.1.2 (Or.inr hpath) e hcs
    · exact flat_paths_wf r cur hwf.2 hcur e ht
  | .cons n (.file hsh) r, cur => by
    intro hwf hcur e he
    rw [wfEntries] at hwf
    simp only [Bool.and_eq_true, decide_eq_true_eq] at hwf
    have hpath := itemPath_wf cur n ⟨hwf.1.1, hwf.1.2⟩ hcur
    simp only [flatEntries] at he
    rcases List.mem_append.mp he with hh | ht
    · rw [List.mem_singleton.mp hh]
      exact hpath
    · exact flat_paths_wf r cur hwf.2 hcur e ht
  | .cons n (.errorNode m) r, cur => by
    intro hwf hcur e he
    rw [wfEntries] at hwf
    simp only [Bool.and_eq_true, decide_eq_true_eq] at hwf
    have hpath := itemPath_wf cur n ⟨hwf.1.1, hwf.1.2⟩ hcur
    simp only [flatEntries] at he
    rcases List.mem_append.mp he with hh | ht
    · rw [List.mem_singleton.mp hh]
      exact hpath
    · exact flat_paths_wf r cur hwf.2 hcur e ht
  | .cons n (.pystr v) r, cur => by
    intro hwf hcur e he
    rw [wfEntries] at hwf
    simp only [Bool.and_eq_true, decide_eq_true_eq] at hwf
    simp only [flatEntries, List.nil_append] at he
    exact flat_paths_wf r cur hwf.2 hcur e he
  | .cons n .malformed r, cur => by
    intro hwf hcur e he
    rw [wfEntries] at hwf
    simp only [Bool.and_eq_true, decide_eq_true_eq] at hwf
    simp only [flatEntries, List.nil_append] at he
    exact flat_paths_wf r cur hwf.2 hcur e he

/-- The detail record the Phase A loop appends for one common hash,
mirroring the branch structure of `phaseAStep`. -/
def detailOf (m1 m2 : List (Str × Str)) (h : Str) : Option FileDetail :=
  if rep m1 h = rep m2 h then none
  else if decide (dirnameStr (rep m1 h) ≠ dirnameStr (rep m2 h))
      && decide (basenameStr (rep m1 h) ≠ basenameStr (rep m2 h)) then
    some ⟨h, rep m1 h, rep m2 h, some (s "moved_renamed")⟩
  else if decide (dirnameStr (rep m1 h) ≠ dirnameStr (rep m2 h)) then
    some ⟨h, rep m1 h, rep m2 h, some (s "moved")⟩
  else if decide (basenameStr (rep m1 h) ≠ basenameStr (rep m2 h)) then
    some ⟨h, rep m1 h, rep m2 h, some (s "renamed")⟩
  else some ⟨h, rep m1 h, rep m2 h, none⟩

/-- The detail record produced for a hash carries that hash. -/
theorem detailOf_hash (m1 m2 : List (Str × Str)) (x : Str) (d : FileDetail)
    (h : detailOf m1 m2 x = some d) : d.hash = x := by
  unfold detailOf at h
  by_cases h1 : rep m1 x = rep m2 x
  · rw [if_pos h1] at h
    cases h
  · rw [if_neg h1] at h
    by_cases h2 : (decide (dirnameStr (rep m1 x) ≠ dirnameStr (rep m2 x))
        && decide (basenameStr (rep m1 x) ≠ basenameStr (rep m2 x))) = true
    · rw [if_pos h2] at h
      cases h
      rfl
    · rw [if_neg h2] at h
      by_cases h3 : decide (dirnameStr (rep m1 x) ≠ dirnameStr (rep m2 x)) = true
      · rw [if_pos h3] at h
        cases h
        rfl
      · rw [if_neg h3] at h
        by_cases h4 : decide (basenameStr (rep m1 x) ≠ basenameStr (rep m2 x)) = true
        · rw [if_pos h4] at h
          cases h
          rfl
        · rw [if_neg h4] at h
          cases h
          rfl

/-- The common hashes of two maps, in the iteration order of the first
map's keys. -/
def commonHashesOf (m1 m2 : List (Str × Str)) : List Str :=
  (m1.map Prod.fst).filter (fun h => decide (h ∈ m2.map Prod.fst))

/-- The final state of the Phase A loop over the common hashes. -/
def phaseAOf (m1 m2 : List (Str × Str)) : AState :=
  (commonHashesOf m1 m2).foldl (phaseAStep m1 m2) ⟨0, 0, 0, 0, []⟩

/-- The unchanged-file count of the diff, unfolded. -/
theorem diffFromItems_files_unchanged (ord : List Str) (items1 items2 : List FlatEntry) :
    (diffFromItems ord items1 items2).files_unchanged
      = (phaseAOf (filesMapOf (orderEntries ord items1))
          (filesMapOf (orderEntries ord items2))).unchanged := rfl

/-- The moved-file count of the diff, unfolded. -/
theorem diffFromItems_files_moved (ord : List Str) (items1 items2 : List FlatEntry) :
    (diffFromItems ord items1 items2).files_moved
      = (phaseAOf (filesMapOf (orderEntries ord items1))
          (filesMapOf (orderEntries ord items2))).moved := rfl

/-- The renamed-file count of the diff, unfolded. -/
theorem diffFromItems_files_renamed (ord : List Str) (items1 items2 : List FlatEntry) :
    (diffFromItems ord items1 items2).files_renamed
      = (phaseAOf (filesMapOf (orderEntries ord items1))
          (filesMapOf (orderEntries ord items2))).renamed := rfl

/-- The moved-and-renamed-file count of the diff, unfolded. -/
theorem diffFromItems_files_moved_renamed (ord : List Str) (items1 items2 : List FlatEntry) :
    (diffFromItems ord items1 items2).files_moved_renamed
      = (phaseAOf (filesMapOf (orderEntries ord items1))
          (filesMapOf (orderEntries ord items2))).movedRenamed := rfl

/-- The per-file detail list of the diff, unfolded. -/
theorem diffFromItems_file_details (ord : List Str) (items1 items2 : List FlatEntry) :
    (diffFromItems ord items1 items2).details.moved_renamed_files
      = (phaseAOf (filesMapOf (orderEntries ord items1))
          (filesMapOf (orderEntries ord items2))).details := rfl

/-- Characterization of the Phase A loop: each counter counts the common
hashes falling in its classification branch, and the detail list collects
one record per non-unchanged common hash in iteration order. -/
theorem phaseA_master (m1 m2 : List (Str × Str)) :
    ∀ (l : List Str) (st : AState),
      (l.foldl (phaseAStep m1 m2) st).unchanged
        = st.unchanged + l.countP (fun h => decide (rep m1 h = rep m2 h)) ∧
      (l.foldl (phaseAStep m1 m2) st).movedRenamed
        = st.movedRenamed + l.countP (fun h => !decide (rep m1 h = rep m2 h)
            && (decide (dirnameStr (rep m1 h) ≠ dirnameStr (rep m2 h))
              && decide (basenameStr (rep m1 h) ≠ basenameStr (rep m2 h)))) ∧
      (l.foldl (phaseAStep m1 m2) st).moved
        = st.moved + l.countP (fun h => !decide (rep m1 h = rep m2 h)
            && !(decide (dirnameStr (rep m1 h) ≠ dirnameStr (rep m2 h))
              && decide (basenameStr (rep m1 h) ≠ basenameStr (rep m2 h)))
            && decide (dirnameStr (rep m1 h) ≠ dirnameStr (rep m2 h))) ∧
      (l.foldl (phaseAStep m1 m2) st).renamed
        = st.renamed + l.countP (fun h => !decide (rep m1 h = rep m2 h)
            && !(decide (dirnameStr (rep m1 h) ≠ dirnameStr (rep m2 h))
              && decide (basenameStr (rep m1 h) ≠ basenameStr (rep m2 h)))
            && !decide (dirnameStr (rep m1 h) ≠ dirnameStr (rep m2 h))
            && decide (basenameStr (rep m1 h) ≠ basenameStr (rep m2 h))) ∧
      (l.foldl (phaseAStep m1 m2) st).details
        = st.details ++ l.filterMap (detailOf m1 m2) := by
  intro l
  induction l with
  | nil =>
    intro st
    simp
  | cons h l ih =>
    intro st
    rw [List.foldl_cons]
    obtain ⟨ih1, ih2, ih3, ih4, ih5⟩ := ih (phaseAStep m1 m2 st h)
    by_cases heq : rep m1 h = rep m2 h
    · have hstep : phaseAStep m1 m2 st h = { st with unchanged := st.unchanged + 1 } := by
        rw [phaseAStep, if_pos heq]
      rw [hstep] at ih1 ih2 ih3 ih4 ih5 ⊢
      refine ⟨?_, ?_, ?_, ?_, ?_⟩ <;>
        simp [ih1, ih2, ih3, ih4, ih5, List.countP_cons, List.filterMap_cons,
          detailOf, heq] <;>
        omega
    · by_cases hdne : dirnameStr (rep m1 h) = dirnameStr (rep m2 h)
      · by_cases hbne : basenameStr (rep m1 h) = basenameStr (rep m2 h)
        · have hstep : phaseAStep m1 m2 st h
              = { st with details := st.details ++ [⟨h, rep m1 h, rep m2 h, none⟩] } := by
            rw [phaseAStep, if_neg heq, if_neg (by simp [hdne]), if_neg (by simp [hdne]),
              if_neg (by simp [hbne])]
          rw [hstep] at ih1 ih2 ih3 ih4 ih5 ⊢
          refine ⟨?_, ?_, ?_, ?_, ?_⟩ <;>
            simp [ih1, ih2, ih3, ih4, ih5, List.countP_cons, List.filterMap_cons,
              detailOf, heq, hdne, hbne] <;>
            omega
        · have hstep : phaseAStep m1 m2 st h
              = { st with
                  renamed := st.renamed + 1,
                  details := st.details
                    ++ [⟨h, rep m1 h, rep m2 h, some (s "renamed")⟩] } := by
            rw [phaseAStep, if_neg heq, if_neg (by simp [hdne]), if_neg (by simp [hdne]),
              if_pos (by simp [hbne])]
          rw [hstep] at ih1 ih2 ih3 ih4 ih5 ⊢
          refine ⟨?_, ?_, ?_, ?_, ?_⟩ <;>
            simp [ih1, ih2, ih3, ih4, ih5, List.countP_cons, List.filterMap_cons,
              detailOf, heq, hdne, hbne] <;>
            omega
      · by_cases hbne : basenameStr (rep m1 h) = basenameStr (rep m2 h)
        · have hstep : phaseAStep m1 m2 st h
              = { st with
                  moved := st.moved + 1,
                  details := st.details
                    ++ [⟨h, rep m1 h, rep m2 h, some (s "moved")⟩] } := by
            rw [phaseAStep, if_neg heq, if_neg (by simp [hbne]), if_pos (by simp [hdne])]
          rw [hstep] at ih1 ih2 ih3 ih4 ih5 ⊢
          refine ⟨?_, ?_, ?_, ?_, ?_⟩ <;>
            simp [ih1, ih2, ih3, ih4, ih5, List.countP_cons, List.filterMap_cons,
              detailOf, heq, hdne, hbne] <;>
            omega
        · have hstep : phaseAStep m1 m2 st h
              = { st with
                  movedRenamed := st.movedRenamed + 1,
                  details := st.details
                    ++ [⟨h, rep m1 h, rep m2 h, some (s "moved_renamed")⟩] } := by
            rw [phaseAStep, if_neg heq, if_pos (by simp [hdne, hbne])]
          rw [hstep] at ih1 ih2 ih3 ih4 ih5 ⊢
          refine ⟨?_, ?_, ?_, ?_, ?_⟩ <;>
            simp [ih1, ih2, ih3, ih4, ih5, List.countP_cons, List.filterMap_cons,
              detailOf, heq, hdne, hbne] <;>
            omega

/-- Looking up a present binding in a dict with duplicate-free keys. -/
theorem dget_of_mem (m : List (Str × Str)) (hnd : (m.map Prod.fst).Nodup)
    (h p : Str) (hm : (h, p) ∈ m) : dget m h = some p := by
  induction m with
  | nil => simp at hm
  | cons kv rest ih =>
    obtain ⟨k0, v0⟩ := kv
    simp only [List.map_cons, List.nodup_cons] at hnd
    rcases List.mem_cons.mp hm with hroot | hrest
    · have hk : h = k0 := congrArg Prod.fst hroot
      have hv : p = v0 := congrArg Prod.snd hroot
      rw [dget, if_pos hk.symm, hv]
    · by_cases hk : k0 = h
      · exact absurd (List.mem_map.mpr ⟨(h, p), hrest, hk.symm⟩) hnd.1
      · rw [dget, if_neg hk]
        exact ih hnd.2 hrest

/-- Four mutually exclusive and exhaustive classifications count up to the
whole list. -/
theorem countP_partition_four {α : Type} (l : List α) (p1 p2 p3 p4 : α → Bool)
    (hx : ∀ x ∈ l, (p1 x).toNat + (p2 x).toNat + (p3 x).toNat + (p4 x).toNat = 1) :
    l.countP p1 + l.countP p2 + l.countP p3 + l.countP p4 = l.length := by
  induction l with
  | nil => rfl
  | cons a l ih =>
    have hmem := hx a (List.mem_cons_self a l)
    have hih := ih (fun x hxl => hx x (List.mem_cons_of_mem a hxl))
    cases h1 : p1 a <;> cases h2 : p2 a <;> cases h3 : p3 a <;> cases h4 : p4 a <;>
      rw [h1, h2, h3, h4] at hmem <;>
      simp [List.countP_cons, h1, h2, h3, h4] at hmem ⊢ <;>
      omega

/-- Filtering the detail list by one hash of a duplicate-free common-hash
list retains exactly the record that hash produced. -/
theorem filterMap_filter_hash (m1 m2 : List (Str × Str)) :
    ∀ (l : List Str), l.Nodup → ∀ hh ∈ l,
      (l.filterMap (detailOf m1 m2)).filter (fun d => decide (d.hash = hh))
        = (detailOf m1 m2 hh).toList := by
  intro l
  induction l with
  | nil =>
    intro _ hh hmem
    simp at hmem
  | cons x xs ih =>
    intro hnd hh hmem
    rw [List.nodup_cons] at hnd
    have hrest_nil : hh ∉ xs →
        (xs.filterMap (detailOf m1 m2)).filter (fun d => decide (d.hash = hh)) = [] := by
      intro hnotin
      rw [List.filter_eq_nil_iff]
      intro d hd
      obtain ⟨x', hx', hdet⟩ := List.mem_filterMap.mp hd
      have := detailOf_hash m1 m2 x' d hdet
      simp only [this, decide_eq_true_eq]
      intro hcontra
      exact hnotin (hcontra ▸ hx')
    rcases List.mem_cons.mp hmem with hhx | hhxs
    · subst hhx
      rw [List.filterMap_cons]
      cases hdet : detailOf m1 m2 hh with
      | none =>
        simp only [Option.toList]
        exact hrest_nil hnd.1
      | some d =>
        have hhash := detailOf_hash m1 m2 hh d hdet
        rw [List.filter_cons, if_pos (by simp [hhash])]
        rw [hrest_nil hnd.1]
        rfl
    · have hne : hh ≠ x := fun hc => hnd.1 (hc ▸ hhxs)
      rw [List.filterMap_cons]
      cases hdet : detailOf m1 m2 x with
      | none => exact ih hnd.2 hh hhxs
      | some d =>
        have hhash := detailOf_hash m1 m2 x d hdet
        rw [List.filter_cons, if_neg (by simp [hhash, Ne.symm hne])]
        exact ih hnd.2 hh hhxs

/-- The distinct file hashes of a snapshot: the key set of its
hash-to-path map. -/
def snapshotHashes (ord : List Str) (es : EntryList) : List Str :=
  (filesMapOf (orderEntries ord (flatEntries es (s ".")))).map Prod.fst

/-- The representative path of every map key of a well-formed snapshot is
a well-formed path. -/
theorem rep_of_key_wf (ord : List Str) (es : EntryList) (hwf : wfEntries es = true)
    (h : Str) (hk : h ∈ snapshotHashes ord es) :
    WfPath (rep (filesMapOf (orderEntries ord (flatEntries es (s ".")))) h) := by
  obtain ⟨⟨h', p⟩, hm, hfst⟩ := List.mem_map.mp hk
  have hfst' : h' = h := hfst
  subst hfst'
  rw [rep, dget_of_mem _ (filesMapOf_keys_nodup _) h' p hm]
  obtain ⟨e, he, hkind, hi, hp⟩ := mem_filesMapOf _ _ _ hm
  have he' := (mem_orderEntries ord _ e).mp he
  exact hp ▸ flat_paths_wf es (s ".") hwf (Or.inl rfl) e he'

/-- For two well-formed representative paths, exactly one of the four
Phase A classifications holds: equal paths, or both components differ,
or only the parent differs, or only the final name differs (the
both-components-equal-but-paths-differ case is impossible). -/
theorem class_toNat_sum (m1 m2 : List (Str × Str)) (h : Str)
    (hw1 : WfPath (rep m1 h)) (hw2 : WfPath (rep m2 h)) :
    (decide (rep m1 h = rep m2 h)).toNat
      + (!decide (rep m1 h = rep m2 h)
          && (decide (dirnameStr (rep m1 h) ≠ dirnameStr (rep m2 h))
            && decide (basenameStr (rep m1 h) ≠ basenameStr (rep m2 h)))).toNat
      + (!decide (rep m1 h = rep m2 h)
          && !(decide (dirnameStr (rep m1 h) ≠ dirnameStr (rep m2 h))
            && decide (basenameStr (rep m1 h) ≠ basenameStr (rep m2 h)))
          && decide (dirnameStr (rep m1 h) ≠ dirnameStr (rep m2 h))).toNat
      + (!decide (rep m1 h = rep m2 h)
          && !(decide (dirnameStr (rep m1 h) ≠ dirnameStr (rep m2 h))
            && decide (basenameStr (rep m1 h) ≠ basenameStr (rep m2 h)))
          && !decide (dirnameStr (rep m1 h) ≠ dirnameStr (rep m2 h))
          && decide (basenameStr (rep m1 h) ≠ basenameStr (rep m2 h))).toNat = 1 := by
  by_cases heq : rep m1 h = rep m2 h
  · simp [heq]
  · by_cases hdne : dirnameStr (rep m1 h) = dirnameStr (rep m2 h)
    · by_cases hbne : basenameStr (rep m1 h) = basenameStr (rep m2 h)
      · exact absurd (wfPath_inj _ _ hw1 hw2 hdne hbne) heq
      · simp [heq, hdne, hbne]
    · by_cases hbne : basenameStr (rep m1 h) = basenameStr (rep m2 h)
      · simp [heq, hdne, hbne]
      · simp [heq, hdne, hbne]

/-- C5: the added and deleted counts are the cardinalities of the
one-sided hash sets, the four common classifications total the number of
common hashes, and all six counts together total the number of distinct
hashes across both snapshots (after duplicate-content collapsing to one
representative path per hash). -/
theorem C5_file_counts_partition (ord : List Str) (es1 es2 : EntryList)
    (hwf1 : wfEntries es1 = true) (hwf2 : wfEntries es2 = true) :
    ∃ r, evaluate_restructuring_with_hashes true none ord (.mk es1) (.mk es2) = some r ∧
      ∃ fa fd u mv rn mr : Nat,
        r.files_added = some fa ∧ r.files_deleted = some fd ∧
        r.files_unchanged = some u ∧ r.files_moved = some mv ∧
        r.files_renamed = some rn ∧ r.files_moved_renamed = some mr ∧
        fa = ((snapshotHashes ord es2).filter
          (fun x => decide (x ∉ snapshotHashes ord es1))).length ∧
        fd = ((snapshotHashes ord es1).filter
          (fun x => decide (x ∉ snapshotHashes ord es2))).length ∧
        u + mv + rn + mr = ((snapshotHashes ord es1).filter
          (fun x => decide (x ∈ snapshotHashes ord es2))).length ∧
        fa + fd + (u + mv + rn + mr)
          = (snapshotHashes ord es1 ++ (snapshotHashes ord es2).filter
              (fun x => decide (x ∉ snapshotHashes ord es1))).length := by
  have hcommon : (diffFromItems ord (flatEntries es1 (s ".")) (flatEntries es2 (s "."))).files_unchanged
      + (diffFromItems ord (flatEntries es1 (s ".")) (flatEntries es2 (s "."))).files_moved
      + (diffFromItems ord (flatEntries es1 (s ".")) (flatEntries es2 (s "."))).files_renamed
      + (diffFromItems ord (flatEntries es1 (s ".")) (flatEntries es2 (s "."))).files_moved_renamed
      = ((snapshotHashes ord es1).filter
          (fun x => decide (x ∈ snapshotHashes ord es2))).length := by
    rw [diffFromItems_files_unchanged, diffFromItems_files_moved,
      diffFromItems_files_renamed, diffFromItems_files_moved_renamed]
    obtain ⟨hm1, hm2, hm3, hm4, _⟩ :=
      phaseA_master (filesMapOf (orderEntries ord (flatEntries es1 (s "."))))
        (filesMapOf (orderEntries ord (flatEntries es2 (s "."))))
        (commonHashesOf (filesMapOf (orderEntries ord (flatEntries es1 (s "."))))
          (filesMapOf (orderEntries ord (flatEntries es2 (s ".")))))
        ⟨0, 0, 0, 0, []⟩
    simp only [show (⟨0, 0, 0, 0, []⟩ : AState).unchanged = 0 from rfl,
      show (⟨0, 0, 0, 0, []⟩ : AState).moved = 0 from rfl,
      show (⟨0, 0, 0, 0, []⟩ : AState).renamed = 0 from rfl,
      show (⟨0, 0, 0, 0, []⟩ : AState).movedRenamed = 0 from rfl,
      Nat.zero_add] at hm1 hm2 hm3 hm4
    have hpart := countP_partition_four
      (commonHashesOf (filesMapOf (orderEntries ord (flatEntries es1 (s "."))))
        (filesMapOf (orderEntries ord (flatEntries es2 (s ".")))))
      _ _ _ _
      (fun x hx => by
        have hx1 : x ∈ snapshotHashes ord es1 := List.mem_of_mem_filter hx
        have hx2 : x ∈ snapshotHashes ord es2 :=
          of_decide_eq_true (List.mem_filter.mp hx).2
        exact class_toNat_sum _ _ x (rep_of_key_wf ord es1 hwf1 x hx1)
          (rep_of_key_wf ord es2 hwf2 x hx2))
    show (phaseAOf _ _).unchanged + (phaseAOf _ _).moved
        + (phaseAOf _ _).renamed + (phaseAOf _ _).movedRenamed = _
    rw [show (phaseAOf (filesMapOf (orderEntries ord (flatEntries es1 (s "."))))
        (filesMapOf (orderEntries ord (flatEntries es2 (s "."))))) =
      (commonHashesOf (filesMapOf (orderEntries ord (flatEntries es1 (s "."))))
          (filesMapOf (orderEntries ord (flatEntries es2 (s "."))))).foldl
        (phaseAStep (filesMapOf (orderEntries ord (flatEntries es1 (s "."))))
          (filesMapOf (orderEntries ord (flatEntries es2 (s "."))))) ⟨0, 0, 0, 0, []⟩ from rfl]
    rw [hm1, hm2, hm3, hm4]
    have hlen : (commonHashesOf (filesMapOf (orderEntries ord (flatEntries es1 (s "."))))
        (filesMapOf (orderEntries ord (flatEntries es2 (s "."))))).length
      = ((snapshotHashes ord es1).filter
          (fun x => decide (x ∈ snapshotHashes ord es2))).length := rfl
    omega
  refine ⟨_, evaluate_true_eq none ord (.mk es1) (.mk es2),
    (diffFromItems ord (flatEntries es1 (s ".")) (flatEntries es2 (s "."))).files_added,
    (diffFromItems ord (flatEntries es1 (s ".")) (flatEntries es2 (s "."))).files_deleted,
    (diffFromItems ord (flatEntries es1 (s ".")) (flatEntries es2 (s "."))).files_unchanged,
    (diffFromItems ord (flatEntries es1 (s ".")) (flatEntries es2 (s "."))).files_moved,
    (diffFromItems ord (flatEntries es1 (s ".")) (flatEntries es2 (s "."))).files_renamed,
    (diffFromItems ord (flatEntries es1 (s ".")) (flatEntries es2 (s "."))).files_moved_renamed,
    rfl, rfl, rfl, rfl, rfl, rfl, rfl, rfl, hcommon, ?_⟩
  have hsplit := length_filter_split (snapshotHashes ord es1)
    (fun h => decide (h ∉ snapshotHashes ord es2))
  have hcompl : (snapshotHashes ord es1).filter
      (fun h => !(decide (h ∉ snapshotHashes ord es2)))
    = (snapshotHashes ord es1).filter
      (fun h => decide (h ∈ snapshotHashes ord es2)) := by
    apply List.filter_congr
    intro a _
    simp
  rw [hcompl] at hsplit
  rw [List.length_append]
  have hfa : (diffFromItems ord (flatEntries es1 (s ".")) (flatEntries es2 (s "."))).files_added
    = ((snapshotHashes ord es2).filter
        (fun x => decide (x ∉ snapshotHashes ord es1))).length := rfl
  have hfd : (diffFromItems ord (flatEntries es1 (s ".")) (flatEntries es2 (s "."))).files_deleted
    = ((snapshotHashes ord es1).filter
        (fun x => decide (x ∉ snapshotHashes ord es2))).length := rfl
  omega

/-- First snapshot of the partition witness: two files. -/
def partA : EntryList :=
  .cons (s "a.txt") (.file (some (s "H1")))
    (.cons (s "b.txt") (.file (some (s "H2"))) .nil)

/-- Second snapshot of the partition witness: one file moved under `c`,
one deleted, one added. -/
def partB : EntryList :=
  .cons (s "c") (.directory (.cons (s "a.txt") (.file (some (s "H1"))) .nil))
    (.cons (s "new.txt") (.file (some (s "H3"))) .nil)

/-- C5, witness: the partition theorem applied to a concrete pair of
well-formed snapshots. -/
theorem C5_file_counts_partition_witness :
    ∃ r, evaluate_restructuring_with_hashes true none [] (.mk partA) (.mk partB) = some r ∧
      ∃ fa fd u mv rn mr : Nat,
        r.files_added = some fa ∧ r.files_deleted = some fd ∧
        r.files_unchanged = some u ∧ r.files_moved = some mv ∧
        r.files_renamed = some rn ∧ r.files_moved_renamed = some mr ∧
        fa = ((snapshotHashes [] partB).filter
          (fun x => decide (x ∉ snapshotHashes [] partA))).length ∧
        fd = ((snapshotHashes [] partA).filter
          (fun x => decide (x ∉ snapshotHashes [] partB))).length ∧
        u + mv + rn + mr = ((snapshotHashes [] partA).filter
          (fun x => decide (x ∈ snapshotHashes [] partB))).length ∧
        fa + fd + (u + mv + rn + mr)
          = (snapshotHashes [] partA ++ (snapshotHashes [] partB).filter
              (fun x => decide (x ∉ snapshotHashes [] partA))).length :=
  C5_file_counts_partition [] partA partB (by decide) (by decide)

/-- C4: for every hash present in both snapshots, the diff classifies the
file by comparing the representative paths component-wise — an identical
full path is counted unchanged and leaves no detail record; otherwise
exactly one detail record `{hash, original_path, new_path, change_type}`
is emitted for the hash, tagged `renamed` when only the final name
differs, `moved` when only the parent directory differs, and
`moved_renamed` when both differ. -/
theorem C4_common_hash_classification (ord : List Str) (es1 es2 : EntryList)
    (hwf1 : wfEntries es1 = true) (hwf2 : wfEntries es2 = true) (h p1 p2 : Str)
    (hm1 : (h, p1) ∈ filesMapOf (orderEntries ord (flatEntries es1 (s "."))))
    (hm2 : (h, p2) ∈ filesMapOf (orderEntries ord (flatEntries es2 (s ".")))) :
    ∃ r, evaluate_restructuring_with_hashes true none ord (.mk es1) (.mk es2) = some r ∧
      ∃ dts, r.details = some dts ∧
        (p1 = p2 → dts.moved_renamed_files.filter (fun d => decide (d.hash = h)) = []) ∧
        (p1 ≠ p2 → ∃ tag : Str,
          dts.moved_renamed_files.filter (fun d => decide (d.hash = h))
            = [⟨h, p1, p2, some tag⟩] ∧
          (dirnameStr p1 = dirnameStr p2 → tag = s "renamed") ∧
          (basenameStr p1 = basenameStr p2 → tag = s "moved") ∧
          (dirnameStr p1 ≠ dirnameStr p2 → basenameStr p1 ≠ basenameStr p2 →
            tag = s "moved_renamed")) := by
  have hnd1 := filesMapOf_keys_nodup (orderEntries ord (flatEntries es1 (s ".")))
  have hnd2 := filesMapOf_keys_nodup (orderEntries ord (flatEntries es2 (s ".")))
  have hrep1 : rep (filesMapOf (orderEntries ord (flatEntries es1 (s ".")))) h = p1 := by
    rw [rep, dget_of_mem _ hnd1 h p1 hm1]
    rfl
  have hrep2 : rep (filesMapOf (orderEntries ord (flatEntries es2 (s ".")))) h = p2 := by
    rw [rep, dget_of_mem _ hnd2 h p2 hm2]
    rfl
  have hwp1 : WfPath p1 := by
    obtain ⟨e, he, _, _, hp⟩ := mem_filesMapOf _ _ _ hm1
    exact hp ▸ flat_paths_wf es1 (s ".") hwf1 (Or.inl rfl) e
      ((mem_orderEntries _ _ e).mp he)
  have hwp2 : WfPath p2 := by
    obtain ⟨e, he, _, _, hp⟩ := mem_filesMapOf _ _ _ hm2
    exact hp ▸ flat_paths_wf es2 (s ".") hwf2 (Or.inl rfl) e
      ((mem_orderEntries _ _ e).mp he)
  have hK1 : h ∈ (filesMapOf (orderEntries ord (flatEntries es1 (s ".")))).map Prod.fst :=
    List.mem_map.mpr ⟨(h, p1), hm1, rfl⟩
  have hK2 : h ∈ (filesMapOf (orderEntries ord (flatEntries es2 (s ".")))).map Prod.fst :=
    List.mem_map.mpr ⟨(h, p2), hm2, rfl⟩
  have hcomm : h ∈ commonHashesOf (filesMapOf (orderEntries ord (flatEntries es1 (s "."))))
      (filesMapOf (orderEntries ord (flatEntries es2 (s ".")))) :=
    List.mem_filter.mpr ⟨hK1, by simp [hK2]⟩
  have hcommnd : (commonHashesOf (filesMapOf (orderEntries ord (flatEntries es1 (s "."))))
      (filesMapOf (orderEntries ord (flatEntries es2 (s "."))))).Nodup :=
    hnd1.filter _
  have hdet : (diffFromItems ord (flatEntries es1 (s ".")) (flatEntries es2 (s "."))).details.moved_renamed_files
      = (commonHashesOf (filesMapOf (orderEntries ord (flatEntries es1 (s "."))))
          (filesMapOf (orderEntries ord (flatEntries es2 (s "."))))).filterMap
        (detailOf (filesMapOf (orderEntries ord (flatEntries es1 (s "."))))
          (filesMapOf (orderEntries ord (flatEntries es2 (s "."))))) := by
    rw [diffFromItems_file_details]
    have hmaster := (phaseA_master (filesMapOf (orderEntries ord (flatEntries es1 (s "."))))
      (filesMapOf (orderEntries ord (flatEntries es2 (s "."))))
      (commonHashesOf (filesMapOf (orderEntries ord (flatEntries es1 (s "."))))
        (filesMapOf (orderEntries ord (flatEntries es2 (s ".")))))
      ⟨0, 0, 0, 0, []⟩).2.2.2.2
    rw [show phaseAOf (filesMapOf (orderEntries ord (flatEntries es1 (s "."))))
        (filesMapOf (orderEntries ord (flatEntries es2 (s ".")))) =
      (commonHashesOf (filesMapOf (orderEntries ord (flatEntries es1 (s "."))))
          (filesMapOf (orderEntries ord (flatEntries es2 (s "."))))).foldl
        (phaseAStep (filesMapOf (orderEntries ord (flatEntries es1 (s "."))))
          (filesMapOf (orderEntries ord (flatEntries es2 (s "."))))) ⟨0, 0, 0, 0, []⟩ from rfl,
      hmaster]
    rfl
  have hfilter := filterMap_filter_hash
    (filesMapOf (orderEntries ord (flatEntries es1 (s "."))))
    (filesMapOf (orderEntries ord (flatEntries es2 (s "."))))
    (commonHashesOf (filesMapOf (orderEntries ord (flatEntries es1 (s "."))))
      (filesMapOf (orderEntries ord (flatEntries es2 (s ".")))))
    hcommnd h hcomm
  refine ⟨_, evaluate_true_eq none ord (.mk es1) (.mk es2), _, rfl, ?_, ?_⟩
  · intro hpeq
    rw [hdet, hfilter]
    simp [detailOf, hrep1, hrep2, hpeq]
  · intro hpne
    by_cases hdne : dirnameStr p1 = dirnameStr p2
    · by_cases hbne : basenameStr p1 = basenameStr p2
      · exact absurd (wfPath_inj p1 p2 hwp1 hwp2 hdne hbne) hpne
      · refine ⟨s "renamed", ?_, fun _ => rfl, fun hb => absurd hb hbne,
          fun hd _ => absurd hdne hd⟩
        rw [hdet, hfilter]
        simp [detailOf, hrep1, hrep2, hpne, hdne, hbne]
    · by_cases hbne : basenameStr p1 = basenameStr p2
      · refine ⟨s "moved", ?_, fun hd => absurd hd hdne, fun _ => rfl,
          fun _ hb => absurd hbne hb⟩
        rw [hdet, hfilter]
        simp [detailOf, hrep1, hrep2, hpne, hdne, hbne]
      · refine ⟨s "moved_renamed", ?_, fun hd => absurd hd hdne,
          fun hb => absurd hb hbne, fun _ _ => rfl⟩
        rw [hdet, hfilter]
        simp [detailOf, hrep1, hrep2, hpne, hdne, hbne]

/-- First snapshot of the classification witness: `docs/report.txt`. -/
def clsA : EntryList :=
  .cons (s "docs") (.directory (.cons (s "report.txt") (.file (some (s "H1"))) .nil)) .nil

/-- Second snapshot of the classification witness: the same hash now at
`docs/final.txt` (same parent, different name). -/
def clsB : EntryList :=
  .cons (s "docs") (.directory (.cons (s "final.txt") (.file (some (s "H1"))) .nil)) .nil

/-- C4, witness: the classification theorem applied to a concrete pair of
snapshots in which hash H1 keeps its parent directory but changes its
final name. -/
theorem C4_common_hash_classification_witness :
    ∃ r, evaluate_restructuring_with_hashes true none [] (.mk clsA) (.mk clsB) = some r ∧
      ∃ dts, r.details = some dts ∧
        (s "docs/report.txt" = s "docs/final.txt" →
          dts.moved_renamed_files.filter (fun d => decide (d.hash = s "H1")) = []) ∧
        (s "docs/report.txt" ≠ s "docs/final.txt" → ∃ tag : Str,
          dts.moved_renamed_files.filter (fun d => decide (d.hash = s "H1"))
            = [⟨s "H1", s "docs/report.txt", s "docs/final.txt", some tag⟩] ∧
          (dirnameStr (s "docs/report.txt") = dirnameStr (s "docs/final.txt") →
            tag = s "renamed") ∧
          (basenameStr (s "docs/report.txt") = basenameStr (s "docs/final.txt") →
            tag = s "moved") ∧
          (dirnameStr (s "docs/report.txt") ≠ dirnameStr (s "docs/final.txt") →
            basenameStr (s "docs/report.txt") ≠ basenameStr (s "docs/final.txt") →
            tag = s "moved_renamed")) :=
  C4_common_hash_classification [] clsA clsB (by decide) (by decide)
    (s "H1") (s "docs/report.txt") (s "docs/final.txt") (by decide) (by decide)
